import Mathlib

set_option maxRecDepth 4000

namespace Kratos

/-! Shallow embedding of the kratos core: errors, selector nodes, the
default selector with the weighted-round-robin and power-of-two-choices
balancers, the EWMA weighted node, the middleware chain and matcher, the
discovery resolvers, and the HTTP codec negotiation.  Go machine integers
are modelled as Int (with explicit wrapping where overflow matters), Go
maps as association lists with unique keys, and float64 values either as
Int where every reachable value is the exact image of an int64 (direct
node weights) or as ℚ (EWMA weights), with the float rounding abstracted
away. -/

/-- Error value of the errors package (errors/errors.go): errors compare
by code and reason; metadata and cause are not modelled. -/
structure KError where
  code : Int
  reason : String
  message : String
deriving DecidableEq

/-- errors.ServiceUnavailable (errors/types.go): HTTP code 503. -/
def ServiceUnavailable (reason message : String) : KError :=
  { code := 503, reason := reason, message := message }

/-- errors.BadRequest (errors/types.go): HTTP code 400. -/
def BadRequest (reason message : String) : KError :=
  { code := 400, reason := reason, message := message }

/-- selector.ErrNoAvailable (selector/selector.go). -/
def ErrNoAvailable : KError := ServiceUnavailable "no_available_node" ""

/-- Value of a base-10 digit character; none on any other character
(strconv with base 10 accepts no underscores and no letters). -/
def digitVal (c : Char) : Option Nat :=
  if '0' ≤ c ∧ c ≤ '9' then some (c.toNat - '0'.toNat) else none

/-- Fold base-10 digits onto an accumulator, failing on a non-digit. -/
def decDigitsAux : List Char → Nat → Option Nat
  | [], acc => some acc
  | c :: cs, acc =>
    match digitVal c with
    | some d => decDigitsAux cs (acc * 10 + d)
    | none => none

/-- Value of a nonempty run of base-10 digits; none when empty or when a
non-digit occurs. -/
def decDigits (cs : List Char) : Option Nat :=
  match cs with
  | [] => none
  | _ => decDigitsAux cs 0

/-- strconv.ParseInt(s, 10, 64): optional sign, then a nonempty run of
base-10 digits whose value fits a signed 64-bit integer; none models a
non-nil error. -/
def parseInt64 (s : String) : Option Int :=
  match s.data with
  | [] => none
  | c :: rest =>
    if c = '-' then
      match decDigits rest with
      | some v => if v ≤ 2 ^ 63 then some (-(v : Int)) else none
      | none => none
    else if c = '+' then
      match decDigits rest with
      | some v => if v ≤ 2 ^ 63 - 1 then some (v : Int) else none
      | none => none
    else
      match decDigits (c :: rest) with
      | some v => if v ≤ 2 ^ 63 - 1 then some (v : Int) else none
      | none => none

/-- A service endpoint URI already split into scheme and host; url.Parse
of internal/endpoint is abstracted to this record. -/
structure REndpoint where
  scheme : String
  host : String
deriving DecidableEq

/-- registry.ServiceInstance: the fields read by the selector and the
resolvers. -/
structure ServiceInstance where
  id : String
  name : String
  version : String
  metadata : List (String × String)
  endpoints : List REndpoint
deriving DecidableEq

/-- Read a key of a Go string-keyed map, modelled as an association list
with unique keys. -/
def mapGet? {β : Type} : List (String × β) → String → Option β
  | [], _ => none
  | (k2, v) :: rest, k => if k2 = k then some v else mapGet? rest k

/-- Write a key of a Go string-keyed map: replace in place or append. -/
def mapSet {β : Type} : List (String × β) → String → β → List (String × β)
  | [], k, v => [(k, v)]
  | (k2, v2) :: rest, k, v =>
    if k2 = k then (k, v) :: rest else (k2, v2) :: mapSet rest k v

/-- selector.DefaultNode (the Node produced by selector.NewNode). -/
structure Node where
  scheme : String
  addr : String
  weight : Option Int
  version : String
  name : String
  metadata : List (String × String)
deriving DecidableEq

/-- selector.NewNode: the metadata key "weight" is parsed with
strconv.ParseInt(str, 10, 64) and recorded only when parsing succeeds. -/
def NewNode (scheme addr : String) (ins : Option ServiceInstance) : Node :=
  match ins with
  | none =>
    { scheme := scheme, addr := addr, weight := none,
      version := "", name := "", metadata := [] }
  | some i =>
    { scheme := scheme, addr := addr,
      weight := (mapGet? i.metadata "weight").bind (fun str => parseInt64 str),
      version := i.version, name := i.name, metadata := i.metadata }

/-- direct.Node (selector/node/direct): a Node plus the last-pick stamp. -/
structure DirectNode where
  node : Node
  lastPick : Int
deriving DecidableEq

/-- direct.Builder.Build: initial lastPick is 0. -/
def directBuild (n : Node) : DirectNode := { node := n, lastPick := 0 }

/-- direct defaultWeight. -/
def defaultWeight : Int := 100

/-- direct.Node.Weight: the initial weight when present, otherwise the
default 100.  The Go value is a float64, but every reachable value is the
exact image of an int64, so it is modelled on Int. -/
def DirectNode.weight (n : DirectNode) : Int :=
  match n.node.weight with
  | some w => w
  | none => defaultWeight

/-- wrr.Balancer state: the per-address current-weight accumulators.
The Go accumulators are float64; with direct nodes every value reached is
an exact integer, so they are modelled on Int. -/
structure WrrState where
  currentWeight : List (String × Int)
deriving DecidableEq

/-- Read of the accumulator map: a missing key reads as 0, as in Go. -/
def mapGetI (m : List (String × Int)) (k : String) : Int :=
  (mapGet? m k).getD 0

/-- The loop of wrr Pick over the candidate list, carrying the map, the
running total weight and the current selection with its weight; a node
replaces the selection when none is selected yet or its accumulator is
strictly larger. -/
def wrrLoop : WrrState → Int → Option DirectNode → Int → List DirectNode →
    WrrState × Int × Option DirectNode × Int
  | st, total, sel, selW, [] => (st, total, sel, selW)
  | st, total, sel, selW, node :: rest =>
    let w := node.weight
    let cwt := mapGetI st.currentWeight node.node.addr + w
    let st2 : WrrState := ⟨mapSet st.currentWeight node.node.addr cwt⟩
    if sel = none ∨ selW < cwt then
      wrrLoop st2 (total + w) (some node) cwt rest
    else
      wrrLoop st2 (total + w) sel selW rest

/-- wrr.Balancer.Pick: an empty list yields ErrNoAvailable; otherwise run
the accumulator loop and charge the total weight to the selected address.
Components: (new state, picked node, done callback, error); the done
callback of a direct node is a no-op, so only its nil-ness is kept, and
the lastPick store of direct Pick (never read by this balancer) is not
modelled. -/
def wrrPick (st : WrrState) (nodes : List DirectNode) :
    WrrState × Option DirectNode × Option Unit × Option KError :=
  if nodes = [] then (st, none, none, some ErrNoAvailable)
  else
    match wrrLoop st 0 none 0 nodes with
    | (s, total, some sel, selW) =>
      (⟨mapSet s.currentWeight sel.node.addr (selW - total)⟩,
        some sel, some (), none)
    | (s, _, none, _) => (s, none, none, some ErrNoAvailable)

/-- selector.Default wired as by wrr.NewBuilder: the atomically stored
weighted-node snapshot (none before the first Apply) plus the balancer
state. -/
structure DefaultSelector where
  nodes : Option (List DirectNode)
  balancer : WrrState
deriving DecidableEq

/-- Default.Apply: rebuild every node with the direct builder and publish
the new snapshot. -/
def applyNodes (d : DefaultSelector) (ns : List Node) : DefaultSelector :=
  { d with nodes := some (ns.map directBuild) }

/-- A per-call node filter.  In the source filters act on the Node view of
the weighted nodes and survivors are cast back to WeightedNode; they are
modelled directly on the weighted view. -/
def NodeFilter : Type := List DirectNode → List DirectNode

/-- Apply the filters in order, as the loop in Default.Select does. -/
def applyFilters (fs : List NodeFilter) (nodes : List DirectNode) :
    List DirectNode :=
  fs.foldl (fun l f => f l) nodes

/-- Default.Select: load the snapshot (failing when Apply has never run),
apply the filters, fail on an empty candidate list, otherwise delegate to
the balancer and return the raw node of the pick. -/
def selectNode (d : DefaultSelector) (fs : List NodeFilter) :
    DefaultSelector × Option Node × Option Unit × Option KError :=
  match d.nodes with
  | none => (d, none, none, some ErrNoAvailable)
  | some nodes =>
    let candidates := applyFilters fs nodes
    if candidates = [] then (d, none, none, some ErrNoAvailable)
    else
      match wrrPick d.balancer candidates with
      | (b2, some sel, done, _) =>
        ({ d with balancer := b2 }, some sel.node, done, none)
      | (b2, none, _, err) => ({ d with balancer := b2 }, none, none, err)

/-- filter.Version (selector/filter): keep the nodes of one version. -/
def versionFilter (v : String) : NodeFilter :=
  fun nodes => nodes.filter (fun n => n.node.version == v)

/-- A filter that only drops candidates, never invents them (every filter
shipped with the repository has this shape). -/
def Selective (f : NodeFilter) : Prop := ∀ l, List.Sublist (f l) l

/-- Total effective weight of a candidate list. -/
def totalWeight (l : List DirectNode) : Int :=
  (l.map DirectNode.weight).sum

/-- Sum of the effective weights of the candidates at one address. -/
def sumWeightAt (l : List DirectNode) (a : String) : Int :=
  ((l.filter (fun n => n.node.addr == a)).map DirectNode.weight).sum

theorem mapGet?_mapSet_self {β : Type} (m : List (String × β)) (k : String) (v : β) :
    mapGet? (mapSet m k v) k = some v := by
  induction m with
  | nil => simp [mapSet, mapGet?]
  | cons kv rest ih =>
    by_cases h : kv.1 = k
    · simp [mapSet, mapGet?, h]
    · simp [mapSet, mapGet?, h, ih]

theorem mapGet?_mapSet_ne {β : Type} (m : List (String × β)) (k k2 : String) (v : β)
    (h : k ≠ k2) : mapGet? (mapSet m k v) k2 = mapGet? m k2 := by
  induction m with
  | nil => simp [mapSet, mapGet?, h]
  | cons kv rest ih =>
    by_cases h2 : kv.1 = k
    · simp [mapSet, mapGet?, h2, h]
    · by_cases h3 : kv.1 = k2
      · simp [mapSet, mapGet?, h2, h3, Ne.symm h]
      · simp [mapSet, mapGet?, h2, h3, ih]

theorem mapGetI_mapSet_self (m : List (String × Int)) (k : String) (v : Int) :
    mapGetI (mapSet m k v) k = v := by
  simp [mapGetI, mapGet?_mapSet_self]

theorem mapGetI_mapSet_ne (m : List (String × Int)) (k k2 : String) (v : Int)
    (h : k ≠ k2) : mapGetI (mapSet m k v) k2 = mapGetI m k2 := by
  simp [mapGetI, mapGet?_mapSet_ne m k k2 v h]

theorem applyFilters_sublist (fs : List NodeFilter) (l : List DirectNode)
    (hf : ∀ f ∈ fs, Selective f) :
    List.Sublist (applyFilters fs l) l := by
  induction fs generalizing l with
  | nil => exact List.Sublist.refl l
  | cons f rest ih =>
    have h1 : List.Sublist (f l) l := hf f (by simp) l
    have h2 := ih (f l) (fun g hg => hf g (by simp [hg]))
    exact h2.trans h1

theorem sumWeightAt_cons (node : DirectNode) (rest : List DirectNode) (a : String) :
    sumWeightAt (node :: rest) a =
      (if node.node.addr = a then node.weight else 0) + sumWeightAt rest a := by
  by_cases h : node.node.addr = a
  · simp [sumWeightAt, List.filter_cons, h]
  · simp [sumWeightAt, List.filter_cons, h]

theorem sumWeightAt_not_mem (l : List DirectNode) (a : String)
    (h : a ∉ l.map (fun n => n.node.addr)) : sumWeightAt l a = 0 := by
  induction l with
  | nil => simp [sumWeightAt]
  | cons node rest ih =>
    simp only [List.map_cons, List.mem_cons, not_or] at h
    rw [sumWeightAt_cons, if_neg (fun he => h.1 he.symm), ih h.2]
    ring

theorem sumWeightAt_self (l : List DirectNode) (m : DirectNode)
    (hnd : (l.map (fun n => n.node.addr)).Nodup) (hm : m ∈ l) :
    sumWeightAt l m.node.addr = m.weight := by
  induction l with
  | nil => simp at hm
  | cons node rest ih =>
    simp only [List.map_cons, List.nodup_cons] at hnd
    rcases List.mem_cons.mp hm with he | hr
    · subst he
      rw [sumWeightAt_cons, if_pos rfl,
        sumWeightAt_not_mem rest m.node.addr hnd.1]
      ring
    · have hne : node.node.addr ≠ m.node.addr := by
        intro he
        exact hnd.1 (he ▸ List.mem_map_of_mem (fun n => n.node.addr) hr)
      rw [sumWeightAt_cons, if_neg hne, ih hnd.2 hr]
      ring

theorem wrrLoop_sel (l : List DirectNode) :
    ∀ (st : WrrState) (total : Int) (sel : Option DirectNode) (selW : Int),
    ((wrrLoop st total sel selW l).2.2.1 = sel ∧ (sel = none → l = [])) ∨
      ∃ n ∈ l, (wrrLoop st total sel selW l).2.2.1 = some n := by
  induction l with
  | nil =>
    intro st total sel selW
    exact Or.inl ⟨rfl, fun _ => rfl⟩
  | cons node rest ih =>
    intro st total sel selW
    simp only [wrrLoop]
    by_cases hc : sel = none ∨
        selW < mapGetI st.currentWeight node.node.addr + node.weight
    · rw [if_pos hc]
      rcases ih _ (total + node.weight) (some node)
          (mapGetI st.currentWeight node.node.addr + node.weight) with
        ⟨h1, _⟩ | ⟨n, hn, h1⟩
      · exact Or.inr ⟨node, by simp, h1⟩
      · exact Or.inr ⟨n, by simp [hn], h1⟩
    · rw [if_neg hc]
      push_neg at hc
      rcases ih _ (total + node.weight) sel selW with ⟨h1, _⟩ | ⟨n, hn, h1⟩
      · exact Or.inl ⟨h1, fun h => absurd h hc.1⟩
      · exact Or.inr ⟨n, by simp [hn], h1⟩

theorem wrrLoop_total (l : List DirectNode) :
    ∀ (st : WrrState) (total : Int) (sel : Option DirectNode) (selW : Int),
    (wrrLoop st total sel selW l).2.1 = total + totalWeight l := by
  induction l with
  | nil => intro st total sel selW; simp [wrrLoop, totalWeight]
  | cons node rest ih =>
    intro st total sel selW
    have htw : totalWeight (node :: rest) = node.weight + totalWeight rest := by
      simp [totalWeight]
    simp only [wrrLoop]
    by_cases hc : sel = none ∨
        selW < mapGetI st.currentWeight node.node.addr + node.weight
    · rw [if_pos hc, ih, htw]; ring
    · rw [if_neg hc, ih, htw]; ring

theorem wrrLoop_map (l : List DirectNode) :
    ∀ (st : WrrState) (total : Int) (sel : Option DirectNode) (selW : Int)
      (a : String),
    mapGetI (wrrLoop st total sel selW l).1.currentWeight a =
      mapGetI st.currentWeight a + sumWeightAt l a := by
  induction l with
  | nil => intro st total sel selW a; simp [wrrLoop, sumWeightAt]
  | cons node rest ih =>
    intro st total sel selW a
    have hstep : ∀ v : Int,
        mapGetI (mapSet st.currentWeight node.node.addr v) a =
          if node.node.addr = a then v else mapGetI st.currentWeight a := by
      intro v
      by_cases h : node.node.addr = a
      · rw [if_pos h, h, mapGetI_mapSet_self]
      · rw [if_neg h, mapGetI_mapSet_ne _ _ _ _ h]
    simp only [wrrLoop]
    by_cases hc : sel = none ∨
        selW < mapGetI st.currentWeight node.node.addr + node.weight
    · rw [if_pos hc, ih, sumWeightAt_cons]
      show mapGetI (mapSet st.currentWeight node.node.addr _) a + _ = _
      rw [hstep]
      by_cases h : node.node.addr = a
      · rw [if_pos h, if_pos h, ← h]; ring
      · rw [if_neg h, if_neg h]; ring
    · rw [if_neg hc, ih, sumWeightAt_cons]
      show mapGetI (mapSet st.currentWeight node.node.addr _) a + _ = _
      rw [hstep]
      by_cases h : node.node.addr = a
      · rw [if_pos h, if_pos h, ← h]; ring
      · rw [if_neg h, if_neg h]; ring

theorem wrrLoop_argmax (base : String → Int) (l : List DirectNode) :
    ∀ (st : WrrState) (total : Int) (sel : Option DirectNode) (selW : Int),
    (∀ n ∈ l, mapGetI st.currentWeight n.node.addr = base n.node.addr) →
    (l.map (fun n => n.node.addr)).Nodup →
    (((wrrLoop st total sel selW l).2.2.1 = sel ∧
        (wrrLoop st total sel selW l).2.2.2 = selW ∧ (sel ≠ none ∨ l = [])) ∨
      (∃ n ∈ l, (wrrLoop st total sel selW l).2.2.1 = some n ∧
        (wrrLoop st total sel selW l).2.2.2 = base n.node.addr + n.weight)) ∧
    (∀ m ∈ l, base m.node.addr + m.weight ≤ (wrrLoop st total sel selW l).2.2.2) ∧
    (sel ≠ none → selW ≤ (wrrLoop st total sel selW l).2.2.2) := by
  induction l with
  | nil =>
    intro st total sel selW hbase hnd
    exact ⟨Or.inl ⟨rfl, rfl, Or.inr rfl⟩, by simp, fun _ => le_refl _⟩
  | cons node rest ih =>
    intro st total sel selW hbase hnd
    simp only [List.map_cons, List.nodup_cons] at hnd
    have hcwt : mapGetI st.currentWeight node.node.addr + node.weight =
        base node.node.addr + node.weight := by
      rw [hbase node (by simp)]
    have hbase2 : ∀ n ∈ rest,
        mapGetI (mapSet st.currentWeight node.node.addr
          (mapGetI st.currentWeight node.node.addr + node.weight)) n.node.addr =
          base n.node.addr := by
      intro n hn
      have hne : node.node.addr ≠ n.node.addr := by
        intro he
        exact hnd.1 (he ▸ List.mem_map_of_mem (fun x => x.node.addr) hn)
      rw [mapGetI_mapSet_ne _ _ _ _ hne]
      exact hbase n (by simp [hn])
    simp only [wrrLoop]
    by_cases hc : sel = none ∨
        selW < mapGetI st.currentWeight node.node.addr + node.weight
    · rw [if_pos hc]
      have IH := ih ⟨mapSet st.currentWeight node.node.addr
          (mapGetI st.currentWeight node.node.addr + node.weight)⟩
        (total + node.weight) (some node)
        (mapGetI st.currentWeight node.node.addr + node.weight) hbase2 hnd.2
      have hmono := IH.2.2 (by simp)
      refine ⟨?_, ?_, ?_⟩
      · rcases IH.1 with ⟨e1, e2, _⟩ | ⟨n, hn, e1, e2⟩
        · exact Or.inr ⟨node, by simp, e1, by rw [e2, hcwt]⟩
        · exact Or.inr ⟨n, by simp [hn], e1, e2⟩
      · intro m hm
        rcases List.mem_cons.mp hm with he | hr
        · subst he
          calc base m.node.addr + m.weight ≤
              (wrrLoop _ _ (some m) _ rest).2.2.2 := by rw [← hcwt]; exact hmono
          _ = _ := rfl
        · exact IH.2.1 m hr
      · intro hsel
        rcases hc with h | h
        · exact absurd h hsel
        · exact le_trans (le_of_lt h) hmono
    · rw [if_neg hc]
      push_neg at hc
      have IH := ih ⟨mapSet st.currentWeight node.node.addr
          (mapGetI st.currentWeight node.node.addr + node.weight)⟩
        (total + node.weight) sel selW hbase2 hnd.2
      refine ⟨?_, ?_, ?_⟩
      · rcases IH.1 with ⟨e1, e2, _⟩ | ⟨n, hn, e1, e2⟩
        · exact Or.inl ⟨e1, e2, Or.inl hc.1⟩
        · exact Or.inr ⟨n, by simp [hn], e1, e2⟩
      · intro m hm
        rcases List.mem_cons.mp hm with he | hr
        · subst he
          have h1 : base m.node.addr + m.weight ≤ selW := by
            rw [← hcwt]; exact hc.2
          exact le_trans h1 (IH.2.2 hc.1)
        · exact IH.2.1 m hr
      · intro hsel
        exact IH.2.2 hc.1

theorem wrrPick_mem (st : WrrState) (nodes : List DirectNode) (hne : nodes ≠ []) :
    ∃ sel ∈ nodes, (wrrPick st nodes).2.1 = some sel ∧
      (wrrPick st nodes).2.2.1 = some () ∧ (wrrPick st nodes).2.2.2 = none := by
  rcases wrrLoop_sel nodes st 0 none 0 with ⟨h1, h2⟩ | ⟨n, hn, h1⟩
  · exact absurd (h2 rfl) hne
  · refine ⟨n, hn, ?_⟩
    unfold wrrPick
    rw [if_neg hne]
    rcases hr : wrrLoop st 0 none 0 nodes with ⟨s, total, selOpt, selW⟩
    rw [hr] at h1
    simp only [Prod.snd, Prod.fst] at h1
    subst h1
    simp

/-- Scenario node A of the spec: address 127.0.0.1:8080, weight 10,
version v2.0.0. -/
def nodeA : Node :=
  NewNode "http" "127.0.0.1:8080"
    (some { id := "127.0.0.1:8080", name := "helloworld", version := "v2.0.0",
            metadata := [("weight", "10")], endpoints := [] })

/-- Scenario node B of the spec: address 127.0.0.1:9090, weight 20,
version v2.0.0. -/
def nodeB : Node :=
  NewNode "http" "127.0.0.1:9090"
    (some { id := "127.0.0.1:9090", name := "helloworld", version := "v2.0.0",
            metadata := [("weight", "20")], endpoints := [] })

/-- A fresh wrr selector (wrr.New) after Apply([A, B]). -/
def wrrStart : DefaultSelector :=
  applyNodes { nodes := none, balancer := ⟨[]⟩ } [nodeA, nodeB]

/-- One Select call with the version filter of the scenario: the new
selector state and the picked node. -/
def selStep (d : DefaultSelector) : DefaultSelector × Option Node :=
  let r := selectNode d [versionFilter "v2.0.0"]
  (r.1, r.2.1)

/-- Selector state after a number of Select calls. -/
def runState : Nat → DefaultSelector → DefaultSelector
  | 0, d => d
  | k + 1, d => runState k (selStep d).1

/-- How often an address is picked over a number of Select calls. -/
def runCount (a : String) : Nat → DefaultSelector → Nat
  | 0, _ => 0
  | k + 1, d =>
    (match (selStep d).2 with
     | some nd => if nd.addr = a then 1 else 0
     | none => 0) + runCount a k (selStep d).1

theorem runState_add (j k : Nat) :
    ∀ d, runState (j + k) d = runState k (runState j d) := by
  induction j with
  | zero =>
    intro d
    rw [Nat.zero_add]
    rfl
  | succ j ih =>
    intro d
    have h : j + 1 + k = (j + k) + 1 := by omega
    rw [h]
    show runState (j + k) (selStep d).1 = _
    rw [ih ((selStep d).1)]
    rfl

theorem runCount_add (a : String) (j k : Nat) :
    ∀ d, runCount a (j + k) d = runCount a j d + runCount a k (runState j d) := by
  induction j with
  | zero =>
    intro d
    rw [Nat.zero_add]
    show runCount a k d = runCount a 0 d + runCount a k (runState 0 d)
    rw [show runCount a 0 d = 0 from rfl, show runState 0 d = d from rfl,
      Nat.zero_add]
  | succ j ih =>
    intro d
    have h : j + 1 + k = (j + k) + 1 := by omega
    rw [h]
    show _ + runCount a (j + k) (selStep d).1 = _ + runCount a j (selStep d).1 + _
    rw [ih ((selStep d).1), Nat.add_assoc]
    rfl

theorem wrr_cycle (k : Nat) :
    runState (3 * k) (runState 3 wrrStart) = runState 3 wrrStart ∧
    runCount "127.0.0.1:8080" (3 * k) (runState 3 wrrStart) = k ∧
    runCount "127.0.0.1:9090" (3 * k) (runState 3 wrrStart) = 2 * k := by
  induction k with
  | zero => exact ⟨rfl, rfl, rfl⟩
  | succ k ih =>
    have h3 : 3 * (k + 1) = 3 + 3 * k := by ring
    have hst : runState 3 (runState 3 wrrStart) = runState 3 wrrStart := by decide
    have hA : runCount "127.0.0.1:8080" 3 (runState 3 wrrStart) = 1 := by decide
    have hB : runCount "127.0.0.1:9090" 3 (runState 3 wrrStart) = 2 := by decide
    refine ⟨?_, ?_, ?_⟩
    · rw [h3, runState_add, hst, ih.1]
    · rw [h3, runCount_add, hA, hst, ih.2.1]
      omega
    · rw [h3, runCount_add, hB, hst, ih.2.2]
      omega

/-- C4: on every Pick with a non-empty candidate list of pairwise-distinct
addresses, the smooth weighted-round-robin balancer adds each weight to
its per-address accumulator, selects a candidate whose incremented
accumulator is maximal, charges the total weight to the selected address
only and leaves foreign addresses untouched; in the spec scenario (A with
weight 10, B with weight 20, version filter passing both, 300 Select
calls) A is picked exactly 100 times and B exactly 200 times, inside the
claimed windows [80, 120] and [180, 220]. -/
theorem c4_wrr_smooth :
    (∀ (st : WrrState) (nodes : List DirectNode), nodes ≠ [] →
      (nodes.map (fun n => n.node.addr)).Nodup →
      ∃ sel ∈ nodes,
        (wrrPick st nodes).2.1 = some sel ∧
        (∀ m ∈ nodes,
          mapGetI (wrrPick st nodes).1.currentWeight m.node.addr =
            mapGetI st.currentWeight m.node.addr + m.weight -
              (if m = sel then totalWeight nodes else 0)) ∧
        (∀ a, a ∉ nodes.map (fun n => n.node.addr) →
          mapGetI (wrrPick st nodes).1.currentWeight a =
            mapGetI st.currentWeight a) ∧
        (∀ m ∈ nodes, mapGetI st.currentWeight m.node.addr + m.weight ≤
          mapGetI st.currentWeight sel.node.addr + sel.weight)) ∧
    runCount "127.0.0.1:8080" 300 wrrStart = 100 ∧
    runCount "127.0.0.1:9090" 300 wrrStart = 200 ∧
    80 ≤ runCount "127.0.0.1:8080" 300 wrrStart ∧
    runCount "127.0.0.1:8080" 300 wrrStart ≤ 120 ∧
    180 ≤ runCount "127.0.0.1:9090" 300 wrrStart ∧
    runCount "127.0.0.1:9090" 300 wrrStart ≤ 220 := by
  have hrunA : runCount "127.0.0.1:8080" 300 wrrStart = 100 := by
    have h300 : (300 : Nat) = 3 + 3 * 99 := by norm_num
    have hA : runCount "127.0.0.1:8080" 3 wrrStart = 1 := by decide
    rw [h300, runCount_add, hA, (wrr_cycle 99).2.1]
  have hrunB : runCount "127.0.0.1:9090" 300 wrrStart = 200 := by
    have h300 : (300 : Nat) = 3 + 3 * 99 := by norm_num
    have hB : runCount "127.0.0.1:9090" 3 wrrStart = 2 := by decide
    rw [h300, runCount_add, hB, (wrr_cycle 99).2.2]
  refine ⟨?_, hrunA, hrunB, by omega, by omega, by omega, by omega⟩
  intro st nodes hne hnd
  have hbase : ∀ n ∈ nodes, mapGetI st.currentWeight n.node.addr =
      mapGetI st.currentWeight n.node.addr := fun n _ => rfl
  have IH := wrrLoop_argmax (fun a => mapGetI st.currentWeight a) nodes
    st 0 none 0 hbase hnd
  rcases IH.1 with ⟨_, _, hcase⟩ | ⟨sel, hselmem, e1, e2⟩
  · rcases hcase with h | h
    · exact absurd rfl h
    · exact absurd h hne
  · have hmax := IH.2.1
    rcases hr : wrrLoop st 0 none 0 nodes with ⟨s, total, selOpt, selW⟩
    rw [hr] at e1 e2 hmax
    simp only [Prod.snd, Prod.fst] at e1 e2 hmax
    subst e1
    have htot : total = totalWeight nodes := by
      have := wrrLoop_total nodes st 0 none 0
      rw [hr] at this
      simpa using this
    have hmap : ∀ a, mapGetI s.currentWeight a =
        mapGetI st.currentWeight a + sumWeightAt nodes a := by
      intro a
      have := wrrLoop_map nodes st 0 none 0 a
      rw [hr] at this
      simpa using this
    have hinj : ∀ m ∈ nodes, ∀ n ∈ nodes, m.node.addr = n.node.addr → m = n := by
      intro m hm n hn he
      exact List.inj_on_of_nodup_map hnd hm hn he
    refine ⟨sel, hselmem, ?_, ?_, ?_, ?_⟩
    · unfold wrrPick
      rw [if_neg hne, hr]
    · intro m hm
      unfold wrrPick
      rw [if_neg hne, hr]
      by_cases hms : m = sel
      · subst hms
        show mapGetI (mapSet s.currentWeight m.node.addr (selW - total)) m.node.addr = _
        rw [mapGetI_mapSet_self, if_pos rfl, e2, htot]
      · have hane : sel.node.addr ≠ m.node.addr := by
          intro he
          exact hms (hinj m hm sel hselmem he.symm)
        show mapGetI (mapSet s.currentWeight sel.node.addr (selW - total)) m.node.addr = _
        rw [mapGetI_mapSet_ne _ _ _ _ hane, hmap, if_neg hms,
          sumWeightAt_self nodes m hnd hm]
        ring
    · intro a ha
      unfold wrrPick
      rw [if_neg hne, hr]
      have hane : sel.node.addr ≠ a := by
        intro he
        exact ha (he ▸ List.mem_map_of_mem (fun n => n.node.addr) hselmem)
      show mapGetI (mapSet s.currentWeight sel.node.addr (selW - total)) a = _
      rw [mapGetI_mapSet_ne _ _ _ _ hane, hmap, sumWeightAt_not_mem nodes a ha]
      ring
    · intro m hm
      have := hmax m hm
      rw [e2] at this
      exact this

/-- C4 witness: the general pick description applied to the two scenario
nodes on a fresh balancer. -/
theorem c4_wrr_smooth_witness :
    ∃ sel ∈ [directBuild nodeA, directBuild nodeB],
      (wrrPick ⟨[]⟩ [directBuild nodeA, directBuild nodeB]).2.1 = some sel ∧
      (∀ m ∈ [directBuild nodeA, directBuild nodeB],
        mapGetI (wrrPick ⟨[]⟩ [directBuild nodeA, directBuild nodeB]).1.currentWeight
            m.node.addr =
          mapGetI (⟨[]⟩ : WrrState).currentWeight m.node.addr + m.weight -
            (if m = sel then totalWeight [directBuild nodeA, directBuild nodeB] else 0)) ∧
      (∀ a, a ∉ [directBuild nodeA, directBuild nodeB].map (fun n => n.node.addr) →
        mapGetI (wrrPick ⟨[]⟩ [directBuild nodeA, directBuild nodeB]).1.currentWeight a =
          mapGetI (⟨[]⟩ : WrrState).currentWeight a) ∧
      (∀ m ∈ [directBuild nodeA, directBuild nodeB],
        mapGetI (⟨[]⟩ : WrrState).currentWeight m.node.addr + m.weight ≤
          mapGetI (⟨[]⟩ : WrrState).currentWeight sel.node.addr + sel.weight) :=
  c4_wrr_smooth.1 ⟨[]⟩ [directBuild nodeA, directBuild nodeB]
    (by decide) (by decide)

/-- C1: before any Apply, after Apply([]), and whenever the per-call
filters eliminate every candidate, Select fails with ErrNoAvailable, which
is ServiceUnavailable with reason no_available_node; after Apply(nodes)
with at least one node and filters that only drop candidates, Select
returns a node of the applied set (so its address is an applied address),
a non-nil done callback and a nil error. -/
theorem c1_selector_emptiness :
    (∀ (b : WrrState) (fs : List NodeFilter),
      selectNode { nodes := none, balancer := b } fs =
        ({ nodes := none, balancer := b }, none, none, some ErrNoAvailable)) ∧
    (∀ (d : DefaultSelector) (fs : List NodeFilter), (∀ f ∈ fs, Selective f) →
      selectNode (applyNodes d []) fs =
        (applyNodes d [], none, none, some ErrNoAvailable)) ∧
    (∀ (d : DefaultSelector) (nodes : List DirectNode) (fs : List NodeFilter),
      d.nodes = some nodes → applyFilters fs nodes = [] →
      selectNode d fs = (d, none, none, some ErrNoAvailable)) ∧
    (∀ (d : DefaultSelector) (ns : List Node) (fs : List NodeFilter),
      (∀ f ∈ fs, Selective f) →
      applyFilters fs (ns.map directBuild) ≠ [] →
      ∃ nd ∈ ns, (selectNode (applyNodes d ns) fs).2.1 = some nd ∧
        (selectNode (applyNodes d ns) fs).2.2.1 = some () ∧
        (selectNode (applyNodes d ns) fs).2.2.2 = none ∧
        nd.addr ∈ ns.map Node.addr) ∧
    ErrNoAvailable = ServiceUnavailable "no_available_node" "" := by
  refine ⟨?_, ?_, ?_, ?_, rfl⟩
  · intro b fs
    rfl
  · intro d fs hf
    have hc : applyFilters fs [] = [] :=
      List.sublist_nil.mp (applyFilters_sublist fs [] hf)
    show selectNode { d with nodes := some ([].map directBuild) } fs = _
    simp only [selectNode, List.map_nil, hc]
    rfl
  · intro d nodes fs hd hfil
    unfold selectNode
    rw [hd]
    simp only [hfil]
    rfl
  · intro d ns fs hf hne
    have hsub := applyFilters_sublist fs (ns.map directBuild) hf
    obtain ⟨sel, hselmem, h1, h2, h3⟩ :=
      wrrPick_mem d.balancer (applyFilters fs (ns.map directBuild)) hne
    have hselns : sel ∈ ns.map directBuild := hsub.subset hselmem
    obtain ⟨nd, hnd, hbuild⟩ := List.mem_map.mp hselns
    refine ⟨nd, hnd, ?_⟩
    have hnode : sel.node = nd := by rw [← hbuild]; rfl
    rcases hp : wrrPick d.balancer (applyFilters fs (ns.map directBuild)) with
      ⟨b2, selOpt, doneOpt, errOpt⟩
    rw [hp] at h1 h2 h3
    simp only [Prod.snd, Prod.fst] at h1 h2 h3
    subst h1; subst h2; subst h3
    show _ ∧ _ ∧ _ ∧ nd.addr ∈ ns.map Node.addr
    refine ⟨?_, ?_, ?_, List.mem_map_of_mem Node.addr hnd⟩
    · show (selectNode (applyNodes d ns) fs).2.1 = some nd
      simp only [selectNode, applyNodes, hp, if_neg hne, hnode]
    · simp only [selectNode, applyNodes, hp, if_neg hne]
    · simp only [selectNode, applyNodes, hp, if_neg hne]

/-- C1 witness: the failure cases on a fresh and an emptied selector with
the scenario version filter, and the success case after applying the two
scenario nodes. -/
theorem c1_selector_emptiness_witness :
    (selectNode (applyNodes { nodes := none, balancer := ⟨[]⟩ } [])
        [versionFilter "v2.0.0"] =
      (applyNodes { nodes := none, balancer := ⟨[]⟩ } [], none, none,
        some ErrNoAvailable)) ∧
    ∃ nd ∈ [nodeA, nodeB],
      (selectNode (applyNodes { nodes := none, balancer := ⟨[]⟩ } [nodeA, nodeB])
          [versionFilter "v2.0.0"]).2.1 = some nd ∧
      (selectNode (applyNodes { nodes := none, balancer := ⟨[]⟩ } [nodeA, nodeB])
          [versionFilter "v2.0.0"]).2.2.1 = some () ∧
      (selectNode (applyNodes { nodes := none, balancer := ⟨[]⟩ } [nodeA, nodeB])
          [versionFilter "v2.0.0"]).2.2.2 = none ∧
      nd.addr ∈ [nodeA, nodeB].map Node.addr := by
  have hsel : ∀ f ∈ [versionFilter "v2.0.0"], Selective f := by
    intro f hf
    have he : f = versionFilter "v2.0.0" := by simpa using hf
    subst he
    intro l
    exact List.filter_sublist l
  constructor
  · exact c1_selector_emptiness.2.1 { nodes := none, balancer := ⟨[]⟩ }
      [versionFilter "v2.0.0"] hsel
  · exact c1_selector_emptiness.2.2.2.1 { nodes := none, balancer := ⟨[]⟩ }
      [nodeA, nodeB] [versionFilter "v2.0.0"] hsel (by decide)

/-- The view of a weighted node that the p2c balancer reads: the effective
weight (a float64 in Go, modelled as ℚ) and the nanoseconds since the last
pick; Pick and Done only touch EWMA state, so just their existence is kept. -/
structure PNode where
  addr : String
  weight : ℚ
  pickElapsed : Int
deriving DecidableEq

instance : Inhabited PNode := ⟨⟨"", 0, 0⟩⟩

/-- p2c forcePick: 3 seconds in nanoseconds. -/
def forcePick : Int := 3000000000

/-- p2c Balancer.prePick: a is drawn from [0, n) and b from [0, n-1), with
b incremented when b ≥ a; the two random draws are inputs of the model. -/
def prePick (nodes : List PNode) (a b0 : Nat) : PNode × PNode :=
  let b := if b0 ≥ a then b0 + 1 else b0
  (nodes.getD a default, nodes.getD b default)

/-- p2c Balancer.Pick.  The state is the single force-probe flag (picked);
CAS(picked, 0, 1) succeeds exactly when the flag is 0 and the code stores
0 back right after, so a successful force-probe leaves the flag at 0.
Result: (new flag, picked node, done callback, error). -/
def p2cPick (picked : Int) (nodes : List PNode) (a b0 : Nat) :
    Int × Option PNode × Option Unit × Option KError :=
  match nodes with
  | [] => (picked, none, none, some ErrNoAvailable)
  | [n] => (picked, some n, some (), none)
  | _ =>
    let pr := prePick nodes a b0
    let pc := if pr.2.weight > pr.1.weight then pr.2 else pr.1
    let upc := if pr.2.weight > pr.1.weight then pr.1 else pr.2
    if upc.pickElapsed > forcePick ∧ picked = 0 then
      (0, some upc, some (), none)
    else (picked, some pc, some (), none)

/-- C5: with n ≥ 2 candidates the two drawn indices are always distinct
and in range; the heavier of the two drawn nodes is picked (its weight is
the max of the pair), except that when the lighter node has not been
picked for over 3 s and the force-probe flag is claimed (flag = 0), the
lighter node is picked; with n = 1 the sole node is picked, and with n = 0
the balancer fails with ErrNoAvailable. -/
theorem c5_p2c_pick :
    (∀ (nodes : List PNode) (a b0 : Nat), a < nodes.length →
      b0 < nodes.length - 1 →
      (if b0 ≥ a then b0 + 1 else b0) < nodes.length ∧
      (if b0 ≥ a then b0 + 1 else b0) ≠ a) ∧
    (∀ (picked : Int) (n1 n2 : PNode) (rest : List PNode) (a b0 : Nat),
      (p2cPick picked (n1 :: n2 :: rest) a b0).2.2.1 = some () ∧
      (p2cPick picked (n1 :: n2 :: rest) a b0).2.2.2 = none ∧
      (let pr := prePick (n1 :: n2 :: rest) a b0
       let pc := if pr.2.weight > pr.1.weight then pr.2 else pr.1
       let upc := if pr.2.weight > pr.1.weight then pr.1 else pr.2
       (p2cPick picked (n1 :: n2 :: rest) a b0).2.1 =
         some (if upc.pickElapsed > forcePick ∧ picked = 0 then upc else pc) ∧
       pc.weight = max pr.1.weight pr.2.weight ∧
       (upc.pickElapsed > forcePick ∧ picked = 0 →
         (p2cPick picked (n1 :: n2 :: rest) a b0).1 = 0))) ∧
    (∀ (picked : Int) (n : PNode) (a b0 : Nat),
      p2cPick picked [n] a b0 = (picked, some n, some (), none)) ∧
    (∀ (picked : Int) (a b0 : Nat),
      p2cPick picked [] a b0 = (picked, none, none, some ErrNoAvailable)) := by
  refine ⟨?_, ?_, fun _ _ _ _ => rfl, fun _ _ _ => rfl⟩
  · intro nodes a b0 ha hb
    by_cases h : b0 ≥ a
    · rw [if_pos h]
      omega
    · rw [if_neg h]
      omega
  · intro picked n1 n2 rest a b0
    simp only [p2cPick]
    by_cases hw : (prePick (n1 :: n2 :: rest) a b0).2.weight >
        (prePick (n1 :: n2 :: rest) a b0).1.weight
    · simp only [if_pos hw]
      by_cases hforce : (prePick (n1 :: n2 :: rest) a b0).1.pickElapsed > forcePick ∧
          picked = 0
      · simp only [if_pos hforce]
        exact ⟨by trivial, by trivial, by trivial,
          (max_eq_right (le_of_lt hw)).symm, by intro _; trivial⟩
      · simp only [if_neg hforce]
        exact ⟨by trivial, by trivial, by trivial,
          (max_eq_right (le_of_lt hw)).symm, fun h => absurd h hforce⟩
    · simp only [if_neg hw]
      by_cases hforce : (prePick (n1 :: n2 :: rest) a b0).2.pickElapsed > forcePick ∧
          picked = 0
      · simp only [if_pos hforce]
        exact ⟨by trivial, by trivial, by trivial,
          (max_eq_left (le_of_not_lt hw)).symm, by intro _; trivial⟩
      · simp only [if_neg hforce]
        exact ⟨by trivial, by trivial, by trivial,
          (max_eq_left (le_of_not_lt hw)).symm, fun h => absurd h hforce⟩

/-- C5 witness: the index draws and the pick applied to two concrete
nodes. -/
theorem c5_p2c_pick_witness :
    ((if (0 : Nat) ≥ 0 then (0 : Nat) + 1 else 0) <
        ([⟨"n1", 1, 0⟩, ⟨"n2", 2, 0⟩] : List PNode).length ∧
      (if (0 : Nat) ≥ 0 then (0 : Nat) + 1 else 0) ≠ 0) ∧
    (p2cPick 0 [⟨"n1", 1, 0⟩, (⟨"n2", 2, 0⟩ : PNode)] 0 0).2.2.1 = some () ∧
    (p2cPick 0 [⟨"n1", 1, 0⟩, (⟨"n2", 2, 0⟩ : PNode)] 0 0).2.2.2 = none ∧
    (let pr := prePick [⟨"n1", 1, 0⟩, (⟨"n2", 2, 0⟩ : PNode)] 0 0
     let pc := if pr.2.weight > pr.1.weight then pr.2 else pr.1
     let upc := if pr.2.weight > pr.1.weight then pr.1 else pr.2
     (p2cPick 0 [⟨"n1", 1, 0⟩, (⟨"n2", 2, 0⟩ : PNode)] 0 0).2.1 =
       some (if upc.pickElapsed > forcePick ∧ (0 : Int) = 0 then upc else pc) ∧
     pc.weight = max pr.1.weight pr.2.weight ∧
     (upc.pickElapsed > forcePick ∧ (0 : Int) = 0 →
       (p2cPick 0 [⟨"n1", 1, 0⟩, (⟨"n2", 2, 0⟩ : PNode)] 0 0).1 = 0)) :=
  ⟨c5_p2c_pick.1 [⟨"n1", 1, 0⟩, ⟨"n2", 2, 0⟩] 0 0 (by decide) (by decide),
    c5_p2c_pick.2.1 0 ⟨"n1", 1, 0⟩ ⟨"n2", 2, 0⟩ [] 0 0⟩

/-- ewma penalty: 100 µs in nanoseconds, charged per in-flight request
while no latency history exists. -/
def penalty : Nat := 100000

/-- ewma.Node state read by Weight: the decayed average lag, the success
rate out of 1000, the in-flight count, the ring of in-flight start stamps
(200 slots in Go) and the cached weight with its stamp.  The uint64 casts
of the source wrap; on the nonnegative counters of any reachable state
they are the identity and are modelled with Int.toNat. -/
structure EwmaNode where
  lag : Int
  success : Nat
  inflight : Int
  inflights : List Int
  cached : Option (ℚ × Int)
deriving DecidableEq

/-- The ring scan of ewma predict: total slow age, slow count, occupied
count, folded over the ring exactly as the source loop does. -/
def ewmaScan (ring : List Int) (avgLag now : Int) : Int × Nat × Nat :=
  ring.foldl
    (fun acc start =>
      if start ≠ 0 then
        if now - start > avgLag then (acc.1 + (now - start), acc.2.1 + 1, acc.2.2 + 1)
        else (acc.1, acc.2.1, acc.2.2 + 1)
      else acc)
    (0, 0, 0)

/-- ewma Node.predict: the truncated mean age of the slow samples when
slowNum ≥ totalNum/2 + 1, otherwise 0 (Go int64 division truncates toward
zero, Int.tdiv). -/
def ewmaPredict (ring : List Int) (avgLag now : Int) : Int :=
  let s := ewmaScan ring avgLag now
  if s.2.1 ≥ s.2.2 / 2 + 1 then s.1.tdiv (Int.ofNat s.2.1) else 0

/-- ewma Node.load: the penalty branch while lag is 0, otherwise the
integer square root of max(avgLag, predict) + 5 ms times the in-flight
count; int64(math.Sqrt(x)) equals Nat.sqrt for every lag a node can
accumulate (below 2^52 ns). -/
def ewmaLoad (n : EwmaNode) (now : Int) : Nat :=
  let avgLag := n.lag
  let p := ewmaPredict n.inflights avgLag now
  if avgLag = 0 then
    penalty * n.inflight.toNat
  else
    let avgLag2 := if p > avgLag then p else avgLag
    Nat.sqrt (avgLag2 + 5000000).toNat * n.inflight.toNat

/-- ewma Node.health: the success counter. -/
def ewmaHealth (n : EwmaNode) : Nat := n.success

/-- ewma Node.Weight: serve the cached value unless its stamp is older
than 5 ms, otherwise recompute health · 10 µs / load (the float64 division
is exact rational arithmetic here) and cache it with the current stamp. -/
def ewmaWeight (n : EwmaNode) (now : Int) : ℚ × EwmaNode :=
  match n.cached with
  | some (v, upAt) =>
    if now - upAt > 5000000 then
      let w : ℚ := ((ewmaHealth n * 1000 * 10 : Nat) : ℚ) / ((ewmaLoad n now : Nat) : ℚ)
      (w, { n with cached := some (w, now) })
    else (v, n)
  | none =>
    let w : ℚ := ((ewmaHealth n * 1000 * 10 : Nat) : ℚ) / ((ewmaLoad n now : Nat) : ℚ)
    (w, { n with cached := some (w, now) })

/-- The occupied ring slots (nonzero start stamps). -/
def occupiedSlots (ring : List Int) : List Int :=
  ring.filter (fun s => decide (s ≠ 0))

/-- The slow samples: occupied slots whose age exceeds the average lag. -/
def slowSlots (ring : List Int) (avgLag now : Int) : List Int :=
  (occupiedSlots ring).filter (fun s => decide (now - s > avgLag))

theorem ewmaScan_spec (ring : List Int) (avgLag now : Int) :
    ∀ acc : Int × Nat × Nat,
    ring.foldl
      (fun acc start =>
        if start ≠ 0 then
          if now - start > avgLag then (acc.1 + (now - start), acc.2.1 + 1, acc.2.2 + 1)
          else (acc.1, acc.2.1, acc.2.2 + 1)
        else acc)
      acc =
      (acc.1 + ((slowSlots ring avgLag now).map (fun s => now - s)).sum,
        acc.2.1 + (slowSlots ring avgLag now).length,
        acc.2.2 + (occupiedSlots ring).length) := by
  induction ring with
  | nil =>
    intro acc
    simp [slowSlots, occupiedSlots]
  | cons start rest ih =>
    intro acc
    by_cases h0 : start ≠ 0
    · by_cases hs : now - start > avgLag
      · rw [List.foldl_cons, if_pos h0, if_pos hs, ih]
        have hocc : occupiedSlots (start :: rest) = start :: occupiedSlots rest := by
          simp [occupiedSlots, List.filter_cons, h0]
        have hslow : slowSlots (start :: rest) avgLag now =
            start :: slowSlots rest avgLag now := by
          simp [slowSlots, hocc, List.filter_cons, hs]
        rw [hslow, hocc]
        simp only [List.map_cons, List.sum_cons, List.length_cons, Prod.mk.injEq]
        refine ⟨by ring, by omega, by omega⟩
      · rw [List.foldl_cons, if_pos h0, if_neg hs, ih]
        have hocc : occupiedSlots (start :: rest) = start :: occupiedSlots rest := by
          simp [occupiedSlots, List.filter_cons, h0]
        have hslow : slowSlots (start :: rest) avgLag now =
            slowSlots rest avgLag now := by
          simp [slowSlots, hocc, List.filter_cons, hs]
        rw [hslow, hocc]
        simp only [List.length_cons, Prod.mk.injEq]
        exact ⟨trivial, trivial, by omega⟩
    · rw [List.foldl_cons, if_neg h0, ih]
      have hocc : occupiedSlots (start :: rest) = occupiedSlots rest := by
        simp [occupiedSlots, List.filter_cons, h0]
      have hslow : slowSlots (start :: rest) avgLag now =
          slowSlots rest avgLag now := by
        simp [slowSlots, hocc]
      rw [hslow, hocc]

/-- ewma predict in the words of the spec: the truncated mean age of the
slow samples exactly when the slow samples are more than half of the
occupied samples. -/
theorem ewmaPredict_spec (ring : List Int) (avgLag now : Int) :
    ewmaPredict ring avgLag now =
      if 2 * (slowSlots ring avgLag now).length > (occupiedSlots ring).length then
        ((slowSlots ring avgLag now).map (fun s => now - s)).sum.tdiv
          (Int.ofNat (slowSlots ring avgLag now).length)
      else 0 := by
  unfold ewmaPredict ewmaScan
  rw [ewmaScan_spec ring avgLag now (0, 0, 0)]
  have hcond : ((0 : Nat) + (slowSlots ring avgLag now).length ≥
      (0 + (occupiedSlots ring).length) / 2 + 1) ↔
      (2 * (slowSlots ring avgLag now).length > (occupiedSlots ring).length) := by
    omega
  by_cases h : 2 * (slowSlots ring avgLag now).length > (occupiedSlots ring).length
  · rw [if_pos (hcond.mpr h), if_pos h]
    simp
  · rw [if_neg (fun hc => h (hcond.mp hc)), if_neg h]

/-- C6: Weight serves the cache while it is at most 5 ms old; on a stale
or empty cache it computes success · 10 µs / load and re-caches it with
the current stamp, where load is penalty · inflight while the average lag
is 0 and otherwise sqrt(max(avgLag, predict) + 5 ms) · inflight, and
predict is the truncated mean age of the slow ring samples when they are
more than half of the occupied samples and 0 otherwise. -/
theorem c6_ewma_weight :
    (∀ (n : EwmaNode) (v : ℚ) (upAt now : Int), n.cached = some (v, upAt) →
      now - upAt ≤ 5000000 → ewmaWeight n now = (v, n)) ∧
    (∀ (n : EwmaNode) (now : Int),
      (n.cached = none ∨ ∃ v upAt, n.cached = some (v, upAt) ∧ now - upAt > 5000000) →
      (ewmaWeight n now).1 =
        ((n.success : ℚ) * 10000) / ((ewmaLoad n now : Nat) : ℚ) ∧
      (ewmaWeight n now).2 = { n with cached := some ((ewmaWeight n now).1, now) } ∧
      (n.lag = 0 → ewmaLoad n now = penalty * n.inflight.toNat) ∧
      (n.lag ≠ 0 → ewmaLoad n now =
        Nat.sqrt (max n.lag (ewmaPredict n.inflights n.lag now) + 5000000).toNat *
          n.inflight.toNat) ∧
      ewmaPredict n.inflights n.lag now =
        (if 2 * (slowSlots n.inflights n.lag now).length >
            (occupiedSlots n.inflights).length then
          ((slowSlots n.inflights n.lag now).map (fun s => now - s)).sum.tdiv
            (Int.ofNat (slowSlots n.inflights n.lag now).length)
        else 0)) := by
  constructor
  · intro n v upAt now hc hfresh
    simp only [ewmaWeight, hc]
    rw [if_neg (not_lt.mpr hfresh)]
  · intro n now hstale
    have hmax : (if ewmaPredict n.inflights n.lag now > n.lag then
        ewmaPredict n.inflights n.lag now else n.lag) =
        max n.lag (ewmaPredict n.inflights n.lag now) := by
      rcases lt_or_ge n.lag (ewmaPredict n.inflights n.lag now) with h | h
      · rw [if_pos h, max_eq_right (le_of_lt h)]
      · rw [if_neg (not_lt.mpr h), max_eq_left h]
    have hco : ((ewmaHealth n * 1000 * 10 : Nat) : ℚ) = (n.success : ℚ) * 10000 := by
      unfold ewmaHealth
      push_cast
      ring
    have hload0 : n.lag = 0 → ewmaLoad n now = penalty * n.inflight.toNat := by
      intro h
      unfold ewmaLoad
      rw [if_pos h]
    have hload1 : n.lag ≠ 0 → ewmaLoad n now =
        Nat.sqrt (max n.lag (ewmaPredict n.inflights n.lag now) + 5000000).toNat *
          n.inflight.toNat := by
      intro h
      unfold ewmaLoad
      rw [if_neg h, hmax]
    rcases hstale with hc | ⟨v, upAt, hc, hstale⟩
    · refine ⟨?_, ?_, hload0, hload1, ewmaPredict_spec _ _ _⟩
      · simp only [ewmaWeight, hc]
        rw [hco]
      · simp only [ewmaWeight, hc]
    · refine ⟨?_, ?_, hload0, hload1, ewmaPredict_spec _ _ _⟩
      · simp only [ewmaWeight, hc]
        rw [if_pos hstale, hco]
      · simp only [ewmaWeight, hc]
        rw [if_pos hstale]

/-- C6 witness: a node with a 3 ms old cache serves the cache, and a node
fresh from the builder (lag 0, success 1000, inflight 1, empty cache,
all-zero ring of 200 slots) recomputes the success/load quotient. -/
theorem c6_ewma_weight_witness :
    (ewmaWeight
        { lag := 0, success := 1000, inflight := 1,
          inflights := List.replicate 200 0, cached := some (100, 7000000) }
        10000000 =
      (100, { lag := 0, success := 1000, inflight := 1,
              inflights := List.replicate 200 0, cached := some (100, 7000000) })) ∧
    (ewmaWeight
        { lag := 0, success := 1000, inflight := 1,
          inflights := List.replicate 200 0, cached := none } 10000000).1 =
      ((({ lag := 0, success := 1000, inflight := 1,
           inflights := List.replicate 200 0, cached := none } : EwmaNode).success : ℚ) *
          10000) /
        ((ewmaLoad
          { lag := 0, success := 1000, inflight := 1,
            inflights := List.replicate 200 0, cached := none } 10000000 : Nat) : ℚ) :=
  ⟨c6_ewma_weight.1
      { lag := 0, success := 1000, inflight := 1,
        inflights := List.replicate 200 0, cached := some (100, 7000000) }
      100 7000000 10000000 rfl (by decide),
    (c6_ewma_weight.2
      { lag := 0, success := 1000, inflight := 1,
        inflights := List.replicate 200 0, cached := none }
      10000000 (Or.inl rfl)).1⟩

/-- internal/endpoint Scheme: append the s suffix when secure. -/
def schemeName (scheme : String) (isSecure : Bool) : String :=
  if isSecure then scheme ++ "s" else scheme

/-- internal/endpoint ParseEndpoint: the host of the first endpoint whose
scheme matches, the empty string when none matches (url.Parse failures
are abstracted by the pre-parsed REndpoint). -/
def ParseEndpoint (endpoints : List REndpoint) (scheme : String) : String :=
  match endpoints.find? (fun e => e.scheme == scheme) with
  | some e => e.host
  | none => ""

/-- transport/http resolver.update, the filtering step: keep the
instances with an endpoint of the resolver scheme (http, or https when
not insecure); there is no deduplication by address here. -/
def httpFiltered (insecure : Bool) (services : List ServiceInstance) :
    List ServiceInstance :=
  services.filter (fun ins =>
    ParseEndpoint ins.endpoints (schemeName "http" (!insecure)) != "")

/-- transport/http resolver.update: filter, optional subsetting (the
external aegis subset helper enters as an arbitrary function; the
identity models subsetSize = 0), build the nodes, and refuse to Apply an
empty node list, keeping the previous snapshot and returning false. -/
def httpUpdate (subsetFn : List ServiceInstance → List ServiceInstance)
    (insecure : Bool) (d : DefaultSelector) (services : List ServiceInstance) :
    DefaultSelector × Bool :=
  let filtered := subsetFn (httpFiltered insecure services)
  let nodes := filtered.map (fun ins =>
    NewNode "http" (ParseEndpoint ins.endpoints (schemeName "http" (!insecure)))
      (some ins))
  if nodes = [] then (d, false)
  else (applyNodes d nodes, true)

/-- The selector state after the resolver processed a sequence of watcher
updates. -/
def httpRun (subsetFn : List ServiceInstance → List ServiceInstance)
    (insecure : Bool) (d : DefaultSelector)
    (updates : List (List ServiceInstance)) : DefaultSelector :=
  updates.foldl (fun d2 services => (httpUpdate subsetFn insecure d2 services).1) d

/-- A gRPC resolver address (resolver.Address with the attributes not
modelled). -/
structure GAddr where
  serverName : String
  addr : String
deriving DecidableEq

/-- The filtering loop of the grpc discovery resolver update: drop
instances without a matching endpoint and deduplicate by endpoint
address through the seen set (a Go map, modelled as a list). -/
def grpcFilterAux (insecure : Bool) : List ServiceInstance → List String →
    List ServiceInstance
  | [], _ => []
  | ins :: rest, seen =>
    let ept := ParseEndpoint ins.endpoints (schemeName "grpc" (!insecure))
    if ept = "" then grpcFilterAux insecure rest seen
    else if ept ∈ seen then grpcFilterAux insecure rest seen
    else ins :: grpcFilterAux insecure rest (ept :: seen)

/-- The deduplicated instance list of the grpc discovery resolver. -/
def grpcFiltered (insecure : Bool) (ins : List ServiceInstance) :
    List ServiceInstance :=
  grpcFilterAux insecure ins []

/-- grpc discovery resolver.update: build the address list from the
deduplicated instances (after optional subsetting) and push it to the
client connection only when non-empty; an empty list keeps the
previously published state. -/
def grpcUpdate (subsetFn : List ServiceInstance → List ServiceInstance)
    (insecure : Bool) (published : Option (List GAddr))
    (ins : List ServiceInstance) : Option (List GAddr) :=
  let filtered := subsetFn (grpcFiltered insecure ins)
  let addrs := filtered.map (fun i =>
    { serverName := i.name,
      addr := ParseEndpoint i.endpoints (schemeName "grpc" (!insecure)) : GAddr })
  if addrs = [] then published else some addrs

/-- The published address state after a sequence of watcher updates. -/
def grpcRun (subsetFn : List ServiceInstance → List ServiceInstance)
    (insecure : Bool) (published : Option (List GAddr))
    (updates : List (List ServiceInstance)) : Option (List GAddr) :=
  updates.foldl (fun p ins => grpcUpdate subsetFn insecure p ins) published

/-- A selector snapshot that has been applied and is non-empty. -/
def GoodSnapshot (d : DefaultSelector) : Prop :=
  ∃ l, d.nodes = some l ∧ l ≠ []

theorem httpUpdate_preserves (subsetFn : List ServiceInstance → List ServiceInstance)
    (insecure : Bool) (d : DefaultSelector) (services : List ServiceInstance)
    (hg : GoodSnapshot d) :
    GoodSnapshot (httpUpdate subsetFn insecure d services).1 := by
  unfold httpUpdate
  by_cases h : (subsetFn (httpFiltered insecure services)).map (fun ins =>
      NewNode "http" (ParseEndpoint ins.endpoints (schemeName "http" (!insecure)))
        (some ins)) = []
  · rw [if_pos h]
    exact hg
  · rw [if_neg h]
    refine ⟨_, rfl, ?_⟩
    intro hmap
    exact h (by simpa using congrArg (List.map DirectNode.node) hmap)

theorem httpRun_preserves (subsetFn : List ServiceInstance → List ServiceInstance)
    (insecure : Bool) (updates : List (List ServiceInstance)) :
    ∀ d, GoodSnapshot d → GoodSnapshot (httpRun subsetFn insecure d updates) := by
  induction updates with
  | nil => intro d hg; exact hg
  | cons u rest ih =>
    intro d hg
    exact ih _ (httpUpdate_preserves subsetFn insecure d u hg)

/-- C7: an update whose filtered node set is empty is never applied: the
HTTP resolver keeps its snapshot and reports false, the gRPC resolver
keeps its published state; consequently once a non-empty snapshot is
published, it stays non-empty through every later update, and in the
non-empty/empty/non-empty burst the snapshot never passes through an
empty intermediate state. -/
theorem c7_resolver_last_known_good :
    (∀ (subsetFn : List ServiceInstance → List ServiceInstance) (insecure : Bool)
      (d : DefaultSelector) (services : List ServiceInstance),
      subsetFn (httpFiltered insecure services) = [] →
      httpUpdate subsetFn insecure d services = (d, false)) ∧
    (∀ (subsetFn : List ServiceInstance → List ServiceInstance) (insecure : Bool)
      (published : Option (List GAddr)) (ins : List ServiceInstance),
      subsetFn (grpcFiltered insecure ins) = [] →
      grpcUpdate subsetFn insecure published ins = published) ∧
    (∀ (subsetFn : List ServiceInstance → List ServiceInstance) (insecure : Bool)
      (d : DefaultSelector) (updates : List (List ServiceInstance)),
      GoodSnapshot d → GoodSnapshot (httpRun subsetFn insecure d updates)) ∧
    (∀ (subsetFn : List ServiceInstance → List ServiceInstance) (insecure : Bool)
      (published : Option (List GAddr)) (updates : List (List ServiceInstance)) (l : List GAddr),
      published = some l → l ≠ [] →
      ∃ l2, grpcRun subsetFn insecure published updates = some l2 ∧ l2 ≠ []) ∧
    (∀ (subsetFn : List ServiceInstance → List ServiceInstance) (insecure : Bool)
      (d : DefaultSelector) (s1 s2 s3 : List ServiceInstance),
      subsetFn (httpFiltered insecure s1) ≠ [] →
      GoodSnapshot (httpUpdate subsetFn insecure d s1).1 ∧
      GoodSnapshot (httpUpdate subsetFn insecure
        (httpUpdate subsetFn insecure d s1).1 s2).1 ∧
      GoodSnapshot (httpUpdate subsetFn insecure (httpUpdate subsetFn insecure
        (httpUpdate subsetFn insecure d s1).1 s2).1 s3).1) := by
  have hstep1 : ∀ (subsetFn : List ServiceInstance → List ServiceInstance)
      (insecure : Bool) (d : DefaultSelector) (s1 : List ServiceInstance),
      subsetFn (httpFiltered insecure s1) ≠ [] →
      GoodSnapshot (httpUpdate subsetFn insecure d s1).1 := by
    intro subsetFn insecure d s1 h1
    unfold httpUpdate
    rw [if_neg (by simpa using h1)]
    exact ⟨_, rfl, by simpa using h1⟩
  refine ⟨?_, ?_, fun sf ins d u => httpRun_preserves sf ins u d, ?_, ?_⟩
  · intro subsetFn insecure d services hfil
    unfold httpUpdate
    rw [hfil]
    rfl
  · intro subsetFn insecure published ins hfil
    unfold grpcUpdate
    rw [hfil]
    rfl
  · intro subsetFn insecure published updates l hpub hne
    have hstep : ∀ (p : Option (List GAddr)) (u : List ServiceInstance)
        (l0 : List GAddr), p = some l0 → l0 ≠ [] →
        ∃ l2, grpcUpdate subsetFn insecure p u = some l2 ∧ l2 ≠ [] := by
      intro p u l0 hp hne0
      unfold grpcUpdate
      by_cases h : (subsetFn (grpcFiltered insecure u)).map (fun i =>
          { serverName := i.name,
            addr := ParseEndpoint i.endpoints (schemeName "grpc" (!insecure)) : GAddr }) = []
      · rw [if_pos h, hp]
        exact ⟨l0, rfl, hne0⟩
      · rw [if_neg h]
        exact ⟨_, rfl, h⟩
    have hrun : ∀ (updates2 : List (List ServiceInstance))
        (p : Option (List GAddr)) (l0 : List GAddr), p = some l0 → l0 ≠ [] →
        ∃ l2, grpcRun subsetFn insecure p updates2 = some l2 ∧ l2 ≠ [] := by
      intro updates2
      induction updates2 with
      | nil =>
        intro p l0 hp hne0
        exact ⟨l0, hp, hne0⟩
      | cons u rest ih =>
        intro p l0 hp hne0
        obtain ⟨l2, h2, hne2⟩ := hstep p u l0 hp hne0
        exact ih (grpcUpdate subsetFn insecure p u) l2 h2 hne2
    exact hrun updates published l hpub hne
  · intro subsetFn insecure d s1 s2 s3 h1
    have g1 := hstep1 subsetFn insecure d s1 h1
    have g2 := httpUpdate_preserves subsetFn insecure _ s2 g1
    have g3 := httpUpdate_preserves subsetFn insecure _ s3 g2
    exact ⟨g1, g2, g3⟩

/-- C7 witness: a concrete non-empty, empty, non-empty burst through the
HTTP resolver, starting from a never-applied selector. -/
theorem c7_resolver_last_known_good_witness :
    GoodSnapshot (httpUpdate (fun l => l) true { nodes := none, balancer := ⟨[]⟩ }
      [{ id := "a", name := "svc", version := "v1", metadata := [],
         endpoints := [⟨"http", "1.2.3.4:80"⟩] }]).1 ∧
    GoodSnapshot (httpUpdate (fun l => l) true
      (httpUpdate (fun l => l) true { nodes := none, balancer := ⟨[]⟩ }
        [{ id := "a", name := "svc", version := "v1", metadata := [],
           endpoints := [⟨"http", "1.2.3.4:80"⟩] }]).1 []).1 ∧
    GoodSnapshot (httpUpdate (fun l => l) true
      (httpUpdate (fun l => l) true
        (httpUpdate (fun l => l) true { nodes := none, balancer := ⟨[]⟩ }
          [{ id := "a", name := "svc", version := "v1", metadata := [],
             endpoints := [⟨"http", "1.2.3.4:80"⟩] }]).1 []).1
      [{ id := "b", name := "svc", version := "v1", metadata := [],
         endpoints := [⟨"http", "5.6.7.8:80"⟩] }]).1 :=
  c7_resolver_last_known_good.2.2.2.2 (fun l => l) true
    { nodes := none, balancer := ⟨[]⟩ }
    [{ id := "a", name := "svc", version := "v1", metadata := [],
       endpoints := [⟨"http", "1.2.3.4:80"⟩] }]
    []
    [{ id := "b", name := "svc", version := "v1", metadata := [],
       endpoints := [⟨"http", "5.6.7.8:80"⟩] }]
    (by decide)

/-- The matching address of an instance under one scheme, when the
instance has an endpoint of that scheme. -/
def matchAddr? (scheme : String) (ins : ServiceInstance) : Option String :=
  let e := ParseEndpoint ins.endpoints scheme
  if e = "" then none else some e

/-- Keep the first occurrence of every string, the later ones dropped. -/
def dedupFirstAux : List String → List String → List String
  | [], _ => []
  | x :: rest, seen =>
    if x ∈ seen then dedupFirstAux rest seen
    else x :: dedupFirstAux rest (x :: seen)

/-- First-occurrence deduplication. -/
def dedupFirst (l : List String) : List String := dedupFirstAux l []

theorem dedupFirstAux_nodup (l : List String) :
    ∀ seen, (dedupFirstAux l seen).Nodup ∧
      ∀ x ∈ dedupFirstAux l seen, x ∉ seen := by
  induction l with
  | nil => intro seen; exact ⟨List.nodup_nil, by simp [dedupFirstAux]⟩
  | cons x rest ih =>
    intro seen
    simp only [dedupFirstAux]
    by_cases hx : x ∈ seen
    · rw [if_pos hx]
      exact (ih seen).imp id (fun h => h)
    · rw [if_neg hx]
      refine ⟨List.nodup_cons.mpr ⟨?_, (ih (x :: seen)).1⟩, ?_⟩
      · intro hmem
        exact (ih (x :: seen)).2 x hmem (by simp)
      · intro y hy
        rcases List.mem_cons.mp hy with he | hmem
        · exact he ▸ hx
        · intro hseen
          exact (ih (x :: seen)).2 y hmem (by simp [hseen])

theorem grpcFilterAux_map (insecure : Bool) (l : List ServiceInstance) :
    ∀ seen, (grpcFilterAux insecure l seen).map (fun i =>
        ParseEndpoint i.endpoints (schemeName "grpc" (!insecure))) =
      dedupFirstAux (l.filterMap (matchAddr? (schemeName "grpc" (!insecure)))) seen := by
  induction l with
  | nil => intro seen; rfl
  | cons ins rest ih =>
    intro seen
    simp only [grpcFilterAux, List.filterMap_cons]
    by_cases he : ParseEndpoint ins.endpoints (schemeName "grpc" (!insecure)) = ""
    · have hm : matchAddr? (schemeName "grpc" (!insecure)) ins = none := by
        simp [matchAddr?, he]
      rw [if_pos he, hm]
      exact ih seen
    · have hm : matchAddr? (schemeName "grpc" (!insecure)) ins =
          some (ParseEndpoint ins.endpoints (schemeName "grpc" (!insecure))) := by
        simp [matchAddr?, he]
      rw [if_neg he, hm]
      by_cases hs : ParseEndpoint ins.endpoints (schemeName "grpc" (!insecure)) ∈ seen
      · rw [if_pos hs]
        show _ = dedupFirstAux (_ :: _) seen
        rw [dedupFirstAux, if_pos hs]
        exact ih seen
      · rw [if_neg hs]
        show _ = dedupFirstAux (_ :: _) seen
        rw [dedupFirstAux, if_neg hs]
        exact congrArg (List.cons _) (ih _)

theorem grpcFilterAux_mem (insecure : Bool) (l : List ServiceInstance) :
    ∀ seen, ∀ i ∈ grpcFilterAux insecure l seen,
      i ∈ l ∧ ParseEndpoint i.endpoints (schemeName "grpc" (!insecure)) ≠ "" := by
  induction l with
  | nil => intro seen i hi; simp [grpcFilterAux] at hi
  | cons ins rest ih =>
    intro seen i hi
    simp only [grpcFilterAux] at hi
    by_cases he : ParseEndpoint ins.endpoints (schemeName "grpc" (!insecure)) = ""
    · rw [if_pos he] at hi
      exact (ih seen i hi).imp (fun h => by simp [h]) id
    · rw [if_neg he] at hi
      by_cases hs : ParseEndpoint ins.endpoints (schemeName "grpc" (!insecure)) ∈ seen
      · rw [if_pos hs] at hi
        exact (ih seen i hi).imp (fun h => by simp [h]) id
      · rw [if_neg hs] at hi
        rcases List.mem_cons.mp hi with heq | hmem
        · subst heq
          exact ⟨by simp, he⟩
        · exact (ih _ i hmem).imp (fun h => by simp [h]) id

/-- C8 counterexample: two instances resolving to the same address.  The
gRPC discovery resolver publishes one address, but the HTTP resolver
applies two nodes with the same address: the HTTP update path has no
deduplication step, so the claim fails as stated. -/
theorem c8_dedup_counterexample :
    (((httpUpdate (fun l => l) true { nodes := none, balancer := ⟨[]⟩ }
        [{ id := "a", name := "svc", version := "v1", metadata := [],
           endpoints := [⟨"http", "1.2.3.4:80"⟩, ⟨"grpc", "1.2.3.4:80"⟩] },
         { id := "b", name := "svc", version := "v1", metadata := [],
           endpoints := [⟨"http", "1.2.3.4:80"⟩, ⟨"grpc", "1.2.3.4:80"⟩] }]).1.nodes.getD
      []).map (fun n => n.node.addr)) = ["1.2.3.4:80", "1.2.3.4:80"] ∧
    grpcUpdate (fun l => l) true none
      [{ id := "a", name := "svc", version := "v1", metadata := [],
         endpoints := [⟨"http", "1.2.3.4:80"⟩, ⟨"grpc", "1.2.3.4:80"⟩] },
       { id := "b", name := "svc", version := "v1", metadata := [],
         endpoints := [⟨"http", "1.2.3.4:80"⟩, ⟨"grpc", "1.2.3.4:80"⟩] }] =
      some [{ serverName := "svc", addr := "1.2.3.4:80" }] := by
  constructor
  · rfl
  · rfl

/-- C8 amended: both resolver update paths keep exactly the instances
with an endpoint of the matching scheme; the gRPC discovery resolver
additionally deduplicates by address (first occurrence wins, the
published addresses are pairwise distinct), while the HTTP resolver keeps
duplicates, so two instances with the same address contribute two nodes
there. -/
theorem c8_resolver_filtering :
    (∀ (insecure : Bool) (services : List ServiceInstance) (ins : ServiceInstance),
      ins ∈ httpFiltered insecure services ↔
        ins ∈ services ∧
          ParseEndpoint ins.endpoints (schemeName "http" (!insecure)) ≠ "") ∧
    (∀ (insecure : Bool) (i : ServiceInstance),
      ParseEndpoint i.endpoints (schemeName "http" (!insecure)) ≠ "" →
      httpFiltered insecure [i, i] = [i, i]) ∧
    (∀ (insecure : Bool) (ins : List ServiceInstance),
      (grpcFiltered insecure ins).map (fun i =>
        ParseEndpoint i.endpoints (schemeName "grpc" (!insecure))) =
        dedupFirst (ins.filterMap (matchAddr? (schemeName "grpc" (!insecure))))) ∧
    (∀ (insecure : Bool) (ins : List ServiceInstance),
      ((grpcFiltered insecure ins).map (fun i =>
        ParseEndpoint i.endpoints (schemeName "grpc" (!insecure)))).Nodup) ∧
    (∀ (insecure : Bool) (ins : List ServiceInstance) (i : ServiceInstance),
      i ∈ grpcFiltered insecure ins →
      i ∈ ins ∧ ParseEndpoint i.endpoints (schemeName "grpc" (!insecure)) ≠ "") := by
  refine ⟨?_, ?_, ?_, ?_, ?_⟩
  · intro insecure services ins
    unfold httpFiltered
    rw [List.mem_filter]
    simp [bne_iff_ne]
  · intro insecure i hi
    unfold httpFiltered
    have hb : (ParseEndpoint i.endpoints (schemeName "http" (!insecure)) != "") = true := by
      simpa [bne_iff_ne] using hi
    simp [List.filter_cons, hb]
  · intro insecure ins
    exact grpcFilterAux_map insecure ins []
  · intro insecure ins
    show (List.map _ (grpcFilterAux insecure ins [])).Nodup
    rw [grpcFilterAux_map insecure ins []]
    exact (dedupFirstAux_nodup _ []).1
  · intro insecure ins i hi
    exact grpcFilterAux_mem insecure ins [] i hi

/-- C8 witness: the amended statement at the two concrete duplicate
instances of the counterexample. -/
theorem c8_resolver_filtering_witness :
    httpFiltered true
      [{ id := "a", name := "svc", version := "v1", metadata := [],
         endpoints := [⟨"http", "1.2.3.4:80"⟩, ⟨"grpc", "1.2.3.4:80"⟩] },
       { id := "a", name := "svc", version := "v1", metadata := [],
         endpoints := [⟨"http", "1.2.3.4:80"⟩, ⟨"grpc", "1.2.3.4:80"⟩] }] =
      [{ id := "a", name := "svc", version := "v1", metadata := [],
         endpoints := [⟨"http", "1.2.3.4:80"⟩, ⟨"grpc", "1.2.3.4:80"⟩] },
       { id := "a", name := "svc", version := "v1", metadata := [],
         endpoints := [⟨"http", "1.2.3.4:80"⟩, ⟨"grpc", "1.2.3.4:80"⟩] }] :=
  c8_resolver_filtering.2.1 true
    { id := "a", name := "svc", version := "v1", metadata := [],
      endpoints := [⟨"http", "1.2.3.4:80"⟩, ⟨"grpc", "1.2.3.4:80"⟩] }
    (by decide)

/-- internal/httputil ContentSubtype: the text between the first slash
and the first semicolon (or the end of the string); empty when there is
no slash or the semicolon precedes it.  Go slices bytes; for the ASCII
content types the byte and character indices coincide. -/
def contentSubtype (contentType : String) : String :=
  match contentType.data.findIdx? (fun c => c == '/') with
  | none => ""
  | some left =>
    let right := (contentType.data.findIdx? (fun c => c == ';')).getD
      contentType.data.length
    if right < left then ""
    else ⟨(contentType.data.drop (left + 1)).take (right - (left + 1))⟩

/-- encoding.GetCodec over the set of registered codec names (the
registry map, with a codec identified by its name). -/
def getCodec (reg : List String) (sub : String) : Option String :=
  if sub ∈ reg then some sub else none

/-- http CodecForRequest: scan the header values in order; the first
value whose content subtype has a registered codec wins, otherwise fall
back to the JSON codec with ok = false. -/
def codecForRequest (reg : List String) : List String → Option String × Bool
  | [] => (getCodec reg "json", false)
  | v :: rest =>
    match getCodec reg (contentSubtype v) with
    | some c => (some c, true)
    | none => codecForRequest reg rest

/-- http DefaultRequestDecoder, the codec selection step: a Content-Type
with no registered codec is rejected with BadRequest("CODEC", ...); the
JSON fallback returned by CodecForRequest is discarded on this path. -/
def requestDecodeCodec (reg : List String) (contentTypeVals : List String) :
    Except KError String :=
  let r := codecForRequest reg contentTypeVals
  if r.2 then Except.ok (r.1.getD "")
  else Except.error (BadRequest "CODEC"
    ("unregister Content-Type: " ++ contentTypeVals.headD ""))

/-- http DefaultResponseEncoder and DefaultErrorEncoder codec selection:
the ok flag is ignored, so an unregistered Accept subtype silently uses
the JSON fallback. -/
def responseCodec (reg : List String) (acceptVals : List String) : Option String :=
  (codecForRequest reg acceptVals).1

/-- C9 counterexample: with the JSON codec registered and a Content-Type
whose subtype has no registered codec, the request decoder returns
BadRequest("CODEC", ...) instead of decoding with the JSON fallback; the
Accept-driven encoder path does use JSON.  This refutes the claim for the
request-decoding half. -/
theorem c9_fallback_counterexample :
    requestDecodeCodec ["json", "proto"] ["application/msgpack"] =
      Except.error (BadRequest "CODEC"
        "unregister Content-Type: application/msgpack") ∧
    requestDecodeCodec ["json", "proto"] ["application/msgpack"] ≠
      Except.ok "json" ∧
    responseCodec ["json", "proto"] ["application/msgpack"] = some "json" := by
  refine ⟨rfl, ?_, rfl⟩
  intro h
  exact Except.noConfusion h

/-- C9 amended: when no header value names a registered subtype,
CodecForRequest returns the JSON codec with ok = false; the response and
error encoders therefore fall back to JSON for the Accept header, while
the request decoder rejects such a Content-Type with BadRequest("CODEC")
instead of using the fallback; when some value names a registered
subtype, the first such value wins with ok = true. -/
theorem c9_codec_fallback :
    (∀ (reg : List String) (vals : List String),
      (∀ v ∈ vals, contentSubtype v ∉ reg) →
      codecForRequest reg vals = (getCodec reg "json", false)) ∧
    (∀ (reg : List String) (vals : List String), "json" ∈ reg →
      (∀ v ∈ vals, contentSubtype v ∉ reg) →
      responseCodec reg vals = some "json" ∧
      requestDecodeCodec reg vals = Except.error (BadRequest "CODEC"
        ("unregister Content-Type: " ++ vals.headD ""))) ∧
    (∀ (reg : List String) (v : String) (vals : List String),
      contentSubtype v ∈ reg →
      codecForRequest reg (v :: vals) = (some (contentSubtype v), true)) := by
  have hnone : ∀ (reg : List String) (vals : List String),
      (∀ v ∈ vals, contentSubtype v ∉ reg) →
      codecForRequest reg vals = (getCodec reg "json", false) := by
    intro reg vals
    induction vals with
    | nil => intro _; rfl
    | cons v rest ih =>
      intro hv
      have h1 : getCodec reg (contentSubtype v) = none := by
        unfold getCodec
        rw [if_neg (hv v (by simp))]
      simp only [codecForRequest, h1]
      exact ih (fun u hu => hv u (by simp [hu]))
  refine ⟨hnone, ?_, ?_⟩
  · intro reg vals hjson hv
    have h1 := hnone reg vals hv
    have h2 : getCodec reg "json" = some "json" := by
      unfold getCodec
      rw [if_pos hjson]
    constructor
    · unfold responseCodec
      rw [h1, h2]
    · unfold requestDecodeCodec
      rw [h1]
      rfl
  · intro reg v vals hreg
    have h1 : getCodec reg (contentSubtype v) = some (contentSubtype v) := by
      unfold getCodec
      rw [if_pos hreg]
    simp only [codecForRequest, h1]

/-- C9 witness: the amended statement at the counterexample inputs plus a
registered Accept value. -/
theorem c9_codec_fallback_witness :
    (responseCodec ["json", "proto"] ["application/msgpack"] = some "json" ∧
      requestDecodeCodec ["json", "proto"] ["application/msgpack"] =
        Except.error (BadRequest "CODEC"
          ("unregister Content-Type: " ++
            (["application/msgpack"] : List String).headD ""))) ∧
    codecForRequest ["json", "proto"] ("application/proto" :: []) =
      (some (contentSubtype "application/proto"), true) :=
  ⟨c9_codec_fallback.2.1 ["json", "proto"] ["application/msgpack"]
      (by decide) (by decide),
    c9_codec_fallback.2.2 ["json", "proto"] "application/proto" [] (by decide)⟩

/-- Go byte-wise strict order on strings; UTF-8 byte order coincides with
code-point order, so it is the lexicographic order on the characters. -/
def charListLt : List Char → List Char → Bool
  | [], [] => false
  | [], _ :: _ => true
  | _ :: _, [] => false
  | a :: as, b :: bs =>
    if a < b then true
    else if b < a then false
    else charListLt as bs

/-- Go string comparison s1 < s2. -/
def goStrLt (a b : String) : Bool := charListLt a.data b.data

theorem charListLt_asymm :
    ∀ (a b : List Char), charListLt a b = true → charListLt b a = false
  | [], [], h => by simp [charListLt] at h
  | [], _ :: _, _ => by simp [charListLt]
  | _ :: _, [], h => by simp [charListLt] at h
  | a :: as, b :: bs, h => by
    simp only [charListLt] at h ⊢
    by_cases hab : a < b
    · rw [if_neg (lt_asymm hab), if_pos hab]
    · rw [if_neg hab] at h
      by_cases hba : b < a
      · rw [if_pos hba] at h
        exact absurd h (by simp)
      · rw [if_neg hba] at h
        rw [if_neg hba, if_neg hab]
        exact charListLt_asymm as bs h

theorem charListLt_trans :
    ∀ (a b c : List Char), charListLt a b = true → charListLt b c = true →
      charListLt a c = true
  | [], b, [], h1, h2 => by
    cases b with
    | nil => simp [charListLt] at h1
    | cons x xs => simp [charListLt] at h2
  | [], _, _ :: _, _, _ => by simp [charListLt]
  | _ :: _, [], _, h1, _ => by simp [charListLt] at h1
  | _ :: _, _ :: _, [], _, h2 => by simp [charListLt] at h2
  | a :: as, b :: bs, c :: cs, h1, h2 => by
    simp only [charListLt] at h1 h2 ⊢
    by_cases hab : a < b
    · by_cases hbc : b < c
      · rw [if_pos (lt_trans hab hbc)]
      · rw [if_neg hbc] at h2
        by_cases hcb : c < b
        · rw [if_pos hcb] at h2
          exact absurd h2 (by simp)
        · have hbceq : b = c := le_antisymm (le_of_not_lt hcb) (le_of_not_lt hbc)
          subst hbceq
          rw [if_pos hab]
    · rw [if_neg hab] at h1
      by_cases hba : b < a
      · rw [if_pos hba] at h1
        exact absurd h1 (by simp)
      · have habeq : a = b := le_antisymm (le_of_not_lt hba) (le_of_not_lt hab)
        subst habeq
        rw [if_neg hab] at h1
        by_cases hbc : a < c
        · rw [if_pos hbc]
        · rw [if_neg hbc] at h2 ⊢
          by_cases hcb : c < a
          · rw [if_pos hcb] at h2
            exact absurd h2 (by simp)
          · rw [if_neg hcb] at h2 ⊢
            exact charListLt_trans as bs cs h1 h2

theorem charListLt_append (p : List Char) (c : Char) (r : List Char) :
    charListLt p (p ++ c :: r) = true := by
  induction p with
  | nil => simp [charListLt]
  | cons a as ih =>
    simp only [List.cons_append, charListLt]
    rw [if_neg (lt_irrefl a), if_neg (lt_irrefl a)]
    exact ih

/-- A proper prefix is strictly smaller in the Go order. -/
theorem charListLt_of_proper_prefix (p q : List Char) (h : p <+: q)
    (hne : p ≠ q) : charListLt p q = true := by
  obtain ⟨t, ht⟩ := h
  cases t with
  | nil => exact absurd (by simpa using ht) hne
  | cons c r =>
    rw [← ht]
    exact charListLt_append p c r

/-- Whether a selector string ends in the prefix marker. -/
def endsStar (s : String) : Bool :=
  match s.data.getLast? with
  | some c => c == '*'
  | none => false

/-- strings.TrimSuffix(selector, the marker): drop the final character of
a prefix selector; exact selectors are unchanged. -/
def trimStar (s : String) : String :=
  if endsStar s then ⟨s.data.dropLast⟩ else s

/-- strings.HasPrefix(s, p). -/
def goHasPfx (s p : String) : Bool := p.data.isPrefixOf s.data

/-- matcher.matcher (middleware/matcher): the sorted prefix selectors,
the default middleware group and the selector table shared by exact and
trimmed prefix selectors (the Go field matches; that word is reserved in
Lean). -/
structure MatcherState (α : Type) where
  prefixes : List String
  defaults : List α
  table : List (String × List α)

/-- matcher.New. -/
def newMatcher {α : Type} : MatcherState α := ⟨[], [], []⟩

/-- matcher.Use. -/
def useMiddleware {α : Type} (st : MatcherState α) (ms : List α) :
    MatcherState α :=
  { st with defaults := ms }

/-- Sorted insert into the descending prefix list.  The source appends
and re-sorts the whole slice descending with sort.Slice; on a list that
is already sorted this inserts the new element at its place, and equal
elements carry equal keys, so any tie order is observationally equal. -/
def insertDesc (p : String) : List String → List String
  | [] => [p]
  | q :: rest => if goStrLt q p then p :: q :: rest else q :: insertDesc p rest

/-- matcher.Add: a selector ending in the marker is trimmed, recorded in
the sorted prefix list and stored in the shared table under its trimmed
form; an exact selector is stored under itself. -/
def addSel {α : Type} (st : MatcherState α) (selector : String) (ms : List α) :
    MatcherState α :=
  if endsStar selector then
    { st with prefixes := insertDesc (trimStar selector) st.prefixes,
              table := mapSet st.table (trimStar selector) ms }
  else
    { st with table := mapSet st.table selector ms }

/-- matcher.Match: defaults, then the exact table hit when present, else
the entry of the first matching prefix in the descending list. -/
def matchOp {α : Type} (st : MatcherState α) (operation : String) : List α :=
  match mapGet? st.table operation with
  | some next => st.defaults ++ next
  | none =>
    match st.prefixes.find? (fun p => goHasPfx operation p) with
    | some p => st.defaults ++ (mapGet? st.table p).getD []
    | none => st.defaults

/-- The matcher state after Use(ds) and a sequence of Add calls. -/
def buildMatcher {α : Type} (ds : List α) (regs : List (String × List α)) :
    MatcherState α :=
  regs.foldl (fun st r => addSel st r.1 r.2) (useMiddleware newMatcher ds)

/-- The descending order of the prefix list: no later element is
strictly larger. -/
def DescSorted (l : List String) : Prop :=
  List.Pairwise (fun a b => goStrLt a b = false) l

theorem mem_insertDesc (p : String) (l : List String) (x : String) :
    x ∈ insertDesc p l ↔ x = p ∨ x ∈ l := by
  induction l with
  | nil => simp [insertDesc]
  | cons q rest ih =>
    simp only [insertDesc]
    by_cases h : goStrLt q p
    · rw [if_pos h]
      simp [or_comm, or_assoc, or_left_comm]
    · rw [if_neg h]
      simp only [List.mem_cons, ih]
      tauto

theorem insertDesc_sorted (p : String) (l : List String) (hs : DescSorted l) :
    DescSorted (insertDesc p l) := by
  induction l with
  | nil => simp [insertDesc, DescSorted]
  | cons q rest ih =>
    rcases (List.pairwise_cons.mp hs) with ⟨hq, hrest⟩
    simp only [insertDesc]
    by_cases h : goStrLt q p
    · rw [if_pos h]
      refine List.pairwise_cons.mpr ⟨?_, hs⟩
      intro x hx
      rcases List.mem_cons.mp hx with he | hmem
      · subst he
        exact charListLt_asymm _ _ h
      · have hqx : goStrLt q x = false := hq x hmem
        refine Bool.eq_false_iff.mpr (fun hc => ?_)
        exact (Bool.eq_false_iff.mp hqx) (charListLt_trans _ _ _ h hc)
    · rw [if_neg h]
      refine List.pairwise_cons.mpr ⟨?_, ih hrest⟩
      intro x hx
      rcases (mem_insertDesc p rest x).mp hx with he | hmem
      · subst he
        exact Bool.eq_false_iff.mpr h
      · exact hq x hmem

/-- The matching of the CLAIM, written from its words: the exact-selector
entry when one is registered for the operation, else the entry of the
longest registered prefix selector whose trimmed form is a prefix of the
operation, else nothing. -/
def specFirstMatch {α : Type} (regs : List (String × List α)) (op : String) :
    List α :=
  match regs.find? (fun r => !endsStar r.1 && r.1 == op) with
  | some r => r.2
  | none =>
    match (regs.filter (fun r => endsStar r.1 && goHasPfx op (trimStar r.1))).foldl
        (fun best r =>
          match best with
          | none => some r
          | some b =>
            if (trimStar r.1).length > (trimStar b.1).length then some r else best)
        none with
    | some r => r.2
    | none => []

/-- Defaults followed by the claimed extra group. -/
def specMatch {α : Type} (ds : List α) (regs : List (String × List α))
    (op : String) : List α :=
  ds ++ specFirstMatch regs op

theorem buildFold_defaults {α : Type} (regs : List (String × List α)) :
    ∀ st : MatcherState α,
    (regs.foldl (fun st2 r => addSel st2 r.1 r.2) st).defaults = st.defaults := by
  induction regs with
  | nil => intro st; rfl
  | cons r rest ih =>
    intro st
    rw [List.foldl_cons, ih]
    unfold addSel
    split
    · rfl
    · rfl

theorem addSel_table {α : Type} (st : MatcherState α) (sel : String) (ms : List α) :
    (addSel st sel ms).table = mapSet st.table (trimStar sel) ms := by
  unfold addSel
  by_cases h : endsStar sel = true
  · rw [if_pos h]
  · rw [if_neg h]
    show mapSet st.table sel ms = mapSet st.table (trimStar sel) ms
    unfold trimStar
    rw [if_neg h]

theorem buildFold_table {α : Type} (regs : List (String × List α)) :
    ∀ (st : MatcherState α) (k : String),
    (regs.map (fun r => trimStar r.1)).Nodup →
    mapGet? (regs.foldl (fun st2 r => addSel st2 r.1 r.2) st).table k =
      (match regs.find? (fun r => trimStar r.1 == k) with
       | some r => some r.2
       | none => mapGet? st.table k) := by
  induction regs with
  | nil => intro st k _; rfl
  | cons r rest ih =>
    intro st k hnd
    simp only [List.map_cons, List.nodup_cons] at hnd
    rw [List.foldl_cons]
    by_cases hk : trimStar r.1 = k
    · have hnone : rest.find? (fun r2 => trimStar r2.1 == k) = none := by
        rw [List.find?_eq_none]
        intro r2 hr2
        simp only [beq_iff_eq]
        intro he
        exact hnd.1 (hk ▸ he ▸ List.mem_map_of_mem (fun x => trimStar x.1) hr2)
      have hpr : (trimStar r.1 == k) = true := by simp [hk]
      rw [ih (addSel st r.1 r.2) k hnd.2]
      simp only [hnone, List.find?_cons, hpr]
      rw [addSel_table, hk, mapGet?_mapSet_self]
    · have hpr : (trimStar r.1 == k) = false := by simp [hk]
      rw [ih (addSel st r.1 r.2) k hnd.2]
      simp only [List.find?_cons, hpr]
      rcases hf : rest.find? (fun r2 => trimStar r2.1 == k) with _ | r2
      · simp only [hf]
        rw [addSel_table, mapGet?_mapSet_ne _ _ _ _ hk]
      · simp only [hf]

theorem buildFold_prefixes_mem {α : Type} (regs : List (String × List α)) :
    ∀ (st : MatcherState α) (q : String),
    (q ∈ (regs.foldl (fun st2 r => addSel st2 r.1 r.2) st).prefixes ↔
      q ∈ st.prefixes ∨ ∃ r ∈ regs, endsStar r.1 = true ∧ trimStar r.1 = q) := by
  induction regs with
  | nil => intro st q; simp
  | cons r rest ih =>
    intro st q
    rw [List.foldl_cons, ih]
    by_cases h : endsStar r.1 = true
    · have hpre : (addSel st r.1 r.2).prefixes =
          insertDesc (trimStar r.1) st.prefixes := by
        unfold addSel
        rw [if_pos h]
      rw [hpre, mem_insertDesc]
      constructor
      · rintro ((he | hq) | ⟨r2, hr2, hst, htr⟩)
        · exact Or.inr ⟨r, by simp, h, he.symm⟩
        · exact Or.inl hq
        · exact Or.inr ⟨r2, by simp [hr2], hst, htr⟩
      · rintro (hq | ⟨r2, hr2, hst, htr⟩)
        · exact Or.inl (Or.inr hq)
        · rcases List.mem_cons.mp hr2 with he | hmem
          · subst he
            exact Or.inl (Or.inl htr.symm)
          · exact Or.inr ⟨r2, hmem, hst, htr⟩
    · have hpre : (addSel st r.1 r.2).prefixes = st.prefixes := by
        unfold addSel
        rw [if_neg h]
      rw [hpre]
      constructor
      · rintro (hq | ⟨r2, hr2, hst, htr⟩)
        · exact Or.inl hq
        · exact Or.inr ⟨r2, by simp [hr2], hst, htr⟩
      · rintro (hq | ⟨r2, hr2, hst, htr⟩)
        · exact Or.inl hq
        · rcases List.mem_cons.mp hr2 with he | hmem
          · subst he
            exact absurd hst h
          · exact Or.inr ⟨r2, hmem, hst, htr⟩

theorem buildFold_prefixes_sorted {α : Type} (regs : List (String × List α)) :
    ∀ st : MatcherState α, DescSorted st.prefixes →
    DescSorted (regs.foldl (fun st2 r => addSel st2 r.1 r.2) st).prefixes := by
  induction regs with
  | nil => intro st hs; exact hs
  | cons r rest ih =>
    intro st hs
    rw [List.foldl_cons]
    apply ih
    by_cases h : endsStar r.1 = true
    · have hpre : (addSel st r.1 r.2).prefixes =
          insertDesc (trimStar r.1) st.prefixes := by
        unfold addSel
        rw [if_pos h]
      rw [hpre]
      exact insertDesc_sorted _ _ hs
    · have hpre : (addSel st r.1 r.2).prefixes = st.prefixes := by
        unfold addSel
        rw [if_neg h]
      rw [hpre]
      exact hs

theorem find?_split {β : Type} (p : β → Bool) :
    ∀ (l : List β) (y : β), l.find? p = some y →
    ∃ l1 l2, l = l1 ++ y :: l2 ∧ ∀ x ∈ l1, p x = false := by
  intro l
  induction l with
  | nil => intro y h; simp [List.find?] at h
  | cons a rest ih =>
    intro y h
    by_cases ha : p a = true
    · simp only [List.find?_cons, ha] at h
      have hy : a = y := by simpa using h
      subst hy
      exact ⟨[], rest, rfl, by simp⟩
    · have haf : p a = false := Bool.eq_false_iff.mpr ha
      simp only [List.find?_cons, haf] at h
      obtain ⟨l1, l2, hsplit, hfail⟩ := ih y h
      refine ⟨a :: l1, l2, by rw [hsplit]; rfl, ?_⟩
      intro x hx
      rcases List.mem_cons.mp hx with he | hmem
      · exact he ▸ haf
      · exact hfail x hmem

theorem descSorted_rel (l1 : List String) (y : String) (l2 : List String)
    (h : DescSorted (l1 ++ y :: l2)) : ∀ z ∈ l2, goStrLt y z = false := by
  have h2 := (List.pairwise_append.mp h).2.1
  exact (List.pairwise_cons.mp h2).1

theorem argmaxFold_spec {α : Type} (len : (String × List α) → Nat) :
    ∀ (l : List (String × List α)) (rstar : String × List α)
      (acc : Option (String × List α)),
    (rstar ∈ l ∨ acc = some rstar) →
    (∀ c ∈ l, len c ≤ len rstar ∧ (len c = len rstar → c = rstar)) →
    (acc = none ∨ ∃ b, acc = some b ∧ len b ≤ len rstar ∧
      (len b = len rstar → b = rstar)) →
    l.foldl
      (fun best r =>
        match best with
        | none => some r
        | some b => if len r > len b then some r else best)
      acc = some rstar := by
  intro l
  induction l with
  | nil =>
    intro rstar acc hin hb hacc
    rcases hin with h | h
    · simp at h
    · simpa using h
  | cons c rest ih =>
    intro rstar acc hin hb hacc
    rw [List.foldl_cons]
    rcases hacc with ha | ⟨b, hab, hble, hbeq⟩
    · subst ha
      apply ih rstar (some c)
      · rcases hin with hm | hcontra
        · rcases List.mem_cons.mp hm with he | hmem
          · exact Or.inr (by rw [he])
          · exact Or.inl hmem
        · exact absurd hcontra (by simp)
      · exact fun c2 h2 => hb c2 (by simp [h2])
      · exact Or.inr ⟨c, rfl, (hb c (by simp)).1, (hb c (by simp)).2⟩
    · subst hab
      by_cases hcb : len c > len b
      · show List.foldl _ (if len c > len b then some c else some b) rest = some rstar
        rw [if_pos hcb]
        apply ih rstar (some c)
        · rcases hin with hm | hcontra
          · rcases List.mem_cons.mp hm with he | hmem
            · exact Or.inr (by rw [he])
            · exact Or.inl hmem
          · have hbr : b = rstar := by simpa using hcontra
            subst hbr
            have := (hb c (by simp)).1
            omega
        · exact fun c2 h2 => hb c2 (by simp [h2])
        · exact Or.inr ⟨c, rfl, (hb c (by simp)).1, (hb c (by simp)).2⟩
      · show List.foldl _ (if len c > len b then some c else some b) rest = some rstar
        rw [if_neg hcb]
        apply ih rstar (some b)
        · rcases hin with hm | hcontra
          · rcases List.mem_cons.mp hm with he | hmem
            · subst he
              have hbr : b = rstar := hbeq (by omega)
              exact Or.inr (by rw [hbr])
            · exact Or.inl hmem
          · exact Or.inr hcontra
        · exact fun c2 h2 => hb c2 (by simp [h2])
        · exact Or.inr ⟨b, rfl, hble, hbeq⟩

theorem strExt {p q : String} (h : p.data = q.data) : p = q := by
  cases p
  cases q
  exact congrArg String.mk h

theorem goHasPfx_refl (s : String) : goHasPfx s s = true :=
  List.isPrefixOf_iff_prefix.mpr (List.prefix_refl _)

/-- The matcher built from any registration sequence whose keys (exact
selectors and trimmed prefix selectors, one shared table) are pairwise
distinct matches exactly as the claim describes. -/
theorem matchOp_spec {α : Type} (ds : List α) (regs : List (String × List α))
    (op : String) (hnd : (regs.map (fun r => trimStar r.1)).Nodup) :
    matchOp (buildMatcher ds regs) op = specMatch ds regs op := by
  have hinj : ∀ r1 ∈ regs, ∀ r2 ∈ regs, trimStar r1.1 = trimStar r2.1 → r1 = r2 :=
    fun r1 h1 r2 h2 he => List.inj_on_of_nodup_map hnd h1 h2 he
  have hdef : (buildMatcher ds regs).defaults = ds := by
    unfold buildMatcher
    rw [buildFold_defaults]
    rfl
  have htab : ∀ k, mapGet? (buildMatcher ds regs).table k =
      (match regs.find? (fun r => trimStar r.1 == k) with
       | some r => some r.2
       | none => none) := by
    intro k
    unfold buildMatcher
    rw [buildFold_table regs _ k hnd]
    rcases hf : regs.find? (fun r => trimStar r.1 == k) with _ | r
    · simp only [hf]
      rfl
    · simp only [hf]
  have hpmem : ∀ q, (q ∈ (buildMatcher ds regs).prefixes ↔
      ∃ r ∈ regs, endsStar r.1 = true ∧ trimStar r.1 = q) := by
    intro q
    unfold buildMatcher
    rw [buildFold_prefixes_mem]
    simp [useMiddleware, newMatcher]
  have hsort : DescSorted (buildMatcher ds regs).prefixes := by
    unfold buildMatcher
    apply buildFold_prefixes_sorted
    exact List.Pairwise.nil
  rcases hfo : regs.find? (fun r => trimStar r.1 == op) with _ | r
  · have htabop : mapGet? (buildMatcher ds regs).table op = none := by
      rw [htab op, hfo]
    have hexact : regs.find? (fun r2 => !endsStar r2.1 && r2.1 == op) = none := by
      rw [List.find?_eq_none]
      intro r2 hr2 hpred
      simp only [Bool.and_eq_true, Bool.not_eq_true', beq_iff_eq] at hpred
      have hkey : trimStar r2.1 = op := by
        unfold trimStar
        rw [if_neg (by simp [hpred.1])]
        exact hpred.2
      have hno := List.find?_eq_none.mp hfo r2 hr2
      simp only [beq_iff_eq] at hno
      exact hno hkey
    simp only [matchOp, htabop, hdef]
    rcases hpf : (buildMatcher ds regs).prefixes.find?
        (fun p => goHasPfx op p) with _ | p
    · simp only [hpf]
      have hcand : regs.filter
          (fun r2 => endsStar r2.1 && goHasPfx op (trimStar r2.1)) = [] := by
        rw [List.filter_eq_nil_iff]
        intro r2 hr2 hpred
        simp only [Bool.and_eq_true] at hpred
        have hqmem : trimStar r2.1 ∈ (buildMatcher ds regs).prefixes :=
          (hpmem _).mpr ⟨r2, hr2, hpred.1, rfl⟩
        exact List.find?_eq_none.mp hpf _ hqmem hpred.2
      simp only [specMatch, specFirstMatch, hexact, hcand, List.foldl_nil]
      rw [List.append_nil]
    · simp only [hpf]
      have hpfx : goHasPfx op p = true := List.find?_some hpf
      have hpinl : p ∈ (buildMatcher ds regs).prefixes :=
        List.mem_of_find?_eq_some hpf
      obtain ⟨rp, hrp, hstar, htrim⟩ := (hpmem p).mp hpinl
      have hfindp : ∃ y, regs.find? (fun r2 => trimStar r2.1 == p) = some y := by
        rcases hf2 : regs.find? (fun r2 => trimStar r2.1 == p) with _ | y
        · have hno := List.find?_eq_none.mp hf2 rp hrp
          simp only [beq_iff_eq] at hno
          exact absurd htrim hno
        · exact ⟨y, hf2⟩
      obtain ⟨y, hy⟩ := hfindp
      have hymem := List.mem_of_find?_eq_some hy
      have hykey : trimStar y.1 = p := by
        simpa [beq_iff_eq] using List.find?_some hy
      have hyrp : y = rp := hinj y hymem rp hrp (by rw [hykey, htrim])
      subst hyrp
      have htabp : mapGet? (buildMatcher ds regs).table p = some y.2 := by
        rw [htab p, hy]
      have hppfx : p.data <+: op.data := List.isPrefixOf_iff_prefix.mp hpfx
      have hb : ∀ c ∈ regs.filter
          (fun r2 => endsStar r2.1 && goHasPfx op (trimStar r2.1)),
          (fun r2 : String × List α => (trimStar r2.1).length) c ≤
            (fun r2 : String × List α => (trimStar r2.1).length) y ∧
          ((fun r2 : String × List α => (trimStar r2.1).length) c =
            (fun r2 : String × List α => (trimStar r2.1).length) y → c = y) := by
        intro c hc
        rw [List.mem_filter] at hc
        obtain ⟨hcmem, hcpred⟩ := hc
        simp only [Bool.and_eq_true] at hcpred
        have hcpfx : (trimStar c.1).data <+: op.data :=
          List.isPrefixOf_iff_prefix.mp hcpred.2
        have hlen : (trimStar c.1).data.length ≤ p.data.length := by
          by_contra hlt
          push_neg at hlt
          have hpc : p.data <+: (trimStar c.1).data :=
            List.prefix_of_prefix_length_le hppfx hcpfx (le_of_lt hlt)
          have hne : p.data ≠ (trimStar c.1).data := by
            intro he
            rw [he] at hlt
            exact absurd hlt (lt_irrefl _)
          have hlt2 : charListLt p.data (trimStar c.1).data = true :=
            charListLt_of_proper_prefix _ _ hpc hne
          have hqmem : trimStar c.1 ∈ (buildMatcher ds regs).prefixes :=
            (hpmem _).mpr ⟨c, hcmem, hcpred.1, rfl⟩
          obtain ⟨l1, l2, hsplit, hfail⟩ := find?_split _ _ _ hpf
          have hqnotl1 : trimStar c.1 ∉ l1 := by
            intro hql1
            have hff := hfail _ hql1
            rw [hcpred.2] at hff
            simp at hff
          have hsort2 := hsort
          rw [hsplit] at hsort2 hqmem
          rcases List.mem_append.mp hqmem with h1 | h2
          · exact hqnotl1 h1
          · rcases List.mem_cons.mp h2 with he | h3
            · rw [he] at hlt
              have : p.data.length < p.data.length := hlt
              exact absurd this (lt_irrefl _)
            · have hrel := descSorted_rel l1 p l2 hsort2 _ h3
              unfold goStrLt at hrel
              rw [hlt2] at hrel
              simp at hrel
        refine ⟨?_, ?_⟩
        · show (trimStar c.1).length ≤ (trimStar y.1).length
          rw [hykey]
          exact hlen
        · intro heq
          replace heq : (trimStar c.1).length = (trimStar y.1).length := heq
          rw [hykey] at heq
          show c = y
          have hdata : (trimStar c.1).data = p.data :=
            (List.prefix_of_prefix_length_le hcpfx hppfx
              (le_of_eq heq)).eq_of_length heq
          have hcq : trimStar c.1 = p := strExt hdata
          exact hinj c hcmem y hymem (by rw [hcq, hykey])
      have hrc : y ∈ regs.filter
          (fun r2 => endsStar r2.1 && goHasPfx op (trimStar r2.1)) := by
        rw [List.mem_filter]
        refine ⟨hymem, ?_⟩
        simp only [Bool.and_eq_true]
        exact ⟨hstar, by rw [hykey]; exact hpfx⟩
      have hargmax := argmaxFold_spec (fun r2 => (trimStar r2.1).length)
        (regs.filter (fun r2 => endsStar r2.1 && goHasPfx op (trimStar r2.1)))
        y none (Or.inl hrc) hb (Or.inl rfl)
      simp only [specMatch, specFirstMatch, hexact, hargmax, htabp, Option.getD_some]
  · have hrmem := List.mem_of_find?_eq_some hfo
    have hrkey : trimStar r.1 = op := by
      simpa [beq_iff_eq] using List.find?_some hfo
    have htabop : mapGet? (buildMatcher ds regs).table op = some r.2 := by
      rw [htab op, hfo]
    simp only [matchOp, htabop, hdef]
    by_cases hstar : endsStar r.1 = true
    · have hexact : regs.find? (fun r2 => !endsStar r2.1 && r2.1 == op) = none := by
        rw [List.find?_eq_none]
        intro r2 hr2 hpred
        simp only [Bool.and_eq_true, Bool.not_eq_true', beq_iff_eq] at hpred
        have hkey2 : trimStar r2.1 = op := by
          unfold trimStar
          rw [if_neg (by simp [hpred.1])]
          exact hpred.2
        have h12 : r2 = r := hinj r2 hr2 r hrmem (by rw [hkey2, hrkey])
        have hf2 := hpred.1
        rw [h12] at hf2
        rw [hf2] at hstar
        exact Bool.false_ne_true hstar
      have hselfpfx : goHasPfx op (trimStar r.1) = true := by
        rw [hrkey]
        exact goHasPfx_refl op
      have hoppfx : (trimStar r.1).data <+: op.data :=
        List.isPrefixOf_iff_prefix.mp hselfpfx
      have hb : ∀ c ∈ regs.filter
          (fun r2 => endsStar r2.1 && goHasPfx op (trimStar r2.1)),
          (fun r2 : String × List α => (trimStar r2.1).length) c ≤
            (fun r2 : String × List α => (trimStar r2.1).length) r ∧
          ((fun r2 : String × List α => (trimStar r2.1).length) c =
            (fun r2 : String × List α => (trimStar r2.1).length) r → c = r) := by
        intro c hc
        rw [List.mem_filter] at hc
        obtain ⟨hcmem, hcpred⟩ := hc
        simp only [Bool.and_eq_true] at hcpred
        have hcpfx : (trimStar c.1).data <+: op.data :=
          List.isPrefixOf_iff_prefix.mp hcpred.2
        have hleno : (trimStar r.1).data.length = op.data.length := by
          rw [hrkey]
        refine ⟨?_, ?_⟩
        · show (trimStar c.1).length ≤ (trimStar r.1).length
          have h1 : (trimStar c.1).data.length ≤ op.data.length :=
            hcpfx.length_le
          show (trimStar c.1).data.length ≤ (trimStar r.1).data.length
          omega
        · intro heq
          show c = r
          have hdata : (trimStar c.1).data = op.data := by
            apply hcpfx.eq_of_length
            show (trimStar c.1).data.length = op.data.length
            have heq2 : (trimStar c.1).data.length = (trimStar r.1).data.length := heq
            omega
          have hcq : trimStar c.1 = op := strExt hdata
          exact hinj c hcmem r hrmem (by rw [hcq, hrkey])
      have hrc : r ∈ regs.filter
          (fun r2 => endsStar r2.1 && goHasPfx op (trimStar r2.1)) := by
        rw [List.mem_filter]
        refine ⟨hrmem, ?_⟩
        simp only [Bool.and_eq_true]
        exact ⟨hstar, hselfpfx⟩
      have hargmax := argmaxFold_spec (fun r2 => (trimStar r2.1).length)
        (regs.filter (fun r2 => endsStar r2.1 && goHasPfx op (trimStar r2.1)))
        r none (Or.inl hrc) hb (Or.inl rfl)
      simp only [specMatch, specFirstMatch, hexact, hargmax]
    · have hf2 : endsStar r.1 = false := Bool.eq_false_iff.mpr hstar
      have htriv : trimStar r.1 = r.1 := by
        unfold trimStar
        rw [if_neg (by simp [hf2])]
      have hpred : (!endsStar r.1 && r.1 == op) = true := by
        rw [Bool.and_eq_true]
        refine ⟨by simp [hf2], ?_⟩
        simp only [beq_iff_eq]
        rw [← htriv]
        exact hrkey
      have hfind : ∃ y, regs.find? (fun r2 => !endsStar r2.1 && r2.1 == op) =
          some y := by
        rcases hfy : regs.find? (fun r2 => !endsStar r2.1 && r2.1 == op) with _ | y
        · exact absurd hpred (List.find?_eq_none.mp hfy r hrmem)
        · exact ⟨y, hfy⟩
      obtain ⟨y, hy⟩ := hfind
      have hymem := List.mem_of_find?_eq_some hy
      have hypred := List.find?_some hy
      simp only [Bool.and_eq_true, Bool.not_eq_true', beq_iff_eq] at hypred
      have hykey : trimStar y.1 = op := by
        unfold trimStar
        rw [if_neg (by simp [hypred.1])]
        exact hypred.2
      have hyr : y = r := hinj y hymem r hrmem (by rw [hykey, hrkey])
      simp only [specMatch, specFirstMatch, hy, hyr]

/-- C3 counterexample: the exact selector "/foo/" and the prefix selector
"/foo/*" share the table key "/foo/", so the later Add overwrites the
exact entry; Match("/foo/") then returns the prefix group [2] where the
claim, as stated, demands the exact-selector entry [1]. -/
theorem c3_matcher_counterexample :
    specMatch ([] : List Nat) [("/foo/", [1]), ("/foo/*", [2])] "/foo/" = [1] ∧
    matchOp (buildMatcher ([] : List Nat)
      [("/foo/", [1]), ("/foo/*", [2])]) "/foo/" = [2] ∧
    matchOp (buildMatcher ([] : List Nat)
        [("/foo/", [1]), ("/foo/*", [2])]) "/foo/" ≠
      specMatch ([] : List Nat) [("/foo/", [1]), ("/foo/*", [2])] "/foo/" := by
  refine ⟨by decide, by decide, by decide⟩

/-- C3 (amended): provided the registered keys are pairwise distinct —
exact selectors and trimmed prefix selectors share one table, so a second
Add under the same key overwrites the first — Match(operation) returns
the defaults followed by exactly one extra group: the exact-selector
entry when registered, else the entry of the longest registered prefix
that is a prefix of the operation, and only the defaults when nothing
matches (Match is a pure function of the state, so repeated calls agree);
concretely, with defaults [M0], "/foo/bar/*" → [M1], "/foo/*" → [M2] and
exact "/foo/bar/baz" → [M3], the three scenario operations resolve to
[M0, M3], [M0, M1] and [M0, M2]. -/
theorem c3_matcher_match :
    (∀ (α : Type) (ds : List α) (regs : List (String × List α)) (op : String),
      (regs.map (fun r => trimStar r.1)).Nodup →
      matchOp (buildMatcher ds regs) op = specMatch ds regs op) ∧
    matchOp (buildMatcher [0]
      [("/foo/bar/*", [1]), ("/foo/*", [2]), ("/foo/bar/baz", [3])])
      "/foo/bar/baz" = [0, 3] ∧
    matchOp (buildMatcher [0]
      [("/foo/bar/*", [1]), ("/foo/*", [2]), ("/foo/bar/baz", [3])])
      "/foo/bar/qux" = [0, 1] ∧
    matchOp (buildMatcher [0]
      [("/foo/bar/*", [1]), ("/foo/*", [2]), ("/foo/bar/baz", [3])])
      "/foo/other" = [0, 2] := by
  exact ⟨fun α ds regs op hnd => matchOp_spec ds regs op hnd,
    by decide, by decide, by decide⟩

/-- C3 witness: the general description applied to the scenario
registrations, whose keys are pairwise distinct. -/
theorem c3_matcher_match_witness :
    matchOp (buildMatcher [0]
        [("/foo/bar/*", [1]), ("/foo/*", [2]), ("/foo/bar/baz", [3])])
      "/foo/bar/qux" =
      specMatch [0]
        [("/foo/bar/*", [1]), ("/foo/*", [2]), ("/foo/bar/baz", [3])]
        "/foo/bar/qux" :=
  c3_matcher_match.1 Nat [0]
    [("/foo/bar/*", [1]), ("/foo/*", [2]), ("/foo/bar/baz", [3])]
    "/foo/bar/qux" (by decide)

/-- middleware.Handler: (ctx, req) → result, with the Go pair
(interface value, error) kept as one opaque result type. -/
def Handler (γ ρ σ : Type) : Type := γ → ρ → σ

/-- middleware.Middleware. -/
def Middleware (γ ρ σ : Type) : Type := Handler γ ρ σ → Handler γ ρ σ

/-- middleware.Chain: the source loops i from len(m)-1 down to 0 doing
next = m[i](next), which is a left fold over the reversed list. -/
def Chain {γ ρ σ : Type} (m : List (Middleware γ ρ σ)) : Middleware γ ρ σ :=
  fun next => m.reverse.foldl (fun h mw => mw h) next

/-- A handler over an event log: the request is the log so far and the
response is the extended log. -/
def traceTerminal : Handler Unit (List String) (List String) :=
  fun _ log => log ++ ["H"]

/-- A middleware that records a pre event before and a post event after
its inner handler. -/
def traceMW (tag : String) : Middleware Unit (List String) (List String) :=
  fun next => fun ctx log => next ctx (log ++ ["pre " ++ tag]) ++ ["post " ++ tag]

/-- C2: Chain(m1, ..., mn)(H) equals m1(m2(...mn(H)...)); the first
middleware listed is the outermost wrapper, so on an event log the
pre-hooks run in listed order, then the terminal handler, then the
post-hooks in reverse order. -/
theorem c2_chain_order :
    (∀ (γ ρ σ : Type) (m : List (Middleware γ ρ σ)) (h : Handler γ ρ σ),
      Chain m h = m.foldr (fun mw acc => mw acc) h) ∧
    (∀ (γ ρ σ : Type) (mw : Middleware γ ρ σ) (m : List (Middleware γ ρ σ))
      (h : Handler γ ρ σ), Chain (mw :: m) h = mw (Chain m h)) ∧
    Chain [traceMW "A", traceMW "B", traceMW "C"] traceTerminal () [] =
      ["pre A", "pre B", "pre C", "H", "post C", "post B", "post A"] := by
  have hfold : ∀ (γ ρ σ : Type) (m : List (Middleware γ ρ σ)) (h : Handler γ ρ σ),
      Chain m h = m.foldr (fun mw acc => mw acc) h := by
    intro γ ρ σ m h
    unfold Chain
    rw [List.foldl_reverse]
  refine ⟨hfold, ?_, ?_⟩
  · intro γ ρ σ mw m h
    rw [hfold, hfold, List.foldr_cons]
  · rfl

/-- C10: a metadata "weight" value that does not parse as a base-10 signed
64-bit integer leaves the node weight nil, the direct weighted node then
reports weight 100 exactly as when the key is absent, and NewNode is total
so construction never fails. -/
theorem c10_malformed_weight (scheme addr : String) (ins : ServiceInstance)
    (s : String) (hs : mapGet? ins.metadata "weight" = some s)
    (hp : parseInt64 s = none) :
    (NewNode scheme addr (some ins)).weight = none ∧
    (directBuild (NewNode scheme addr (some ins))).weight = 100 ∧
    (∀ ins2 : ServiceInstance, mapGet? ins2.metadata "weight" = none →
      (NewNode scheme addr (some ins2)).weight = none ∧
      (directBuild (NewNode scheme addr (some ins2))).weight = 100) := by
  have h1 : (NewNode scheme addr (some ins)).weight = none := by
    simp [NewNode, hs, hp]
  refine ⟨h1, ?_, ?_⟩
  · simp [directBuild, DirectNode.weight, h1, defaultWeight]
  · intro ins2 h2
    have h3 : (NewNode scheme addr (some ins2)).weight = none := by
      simp [NewNode, h2]
    exact ⟨h3, by simp [directBuild, DirectNode.weight, h3, defaultWeight]⟩

/-- C10 witness: the weight string "10x" does not parse, and an overflowing
weight string behaves the same. -/
theorem c10_malformed_weight_witness :
    (NewNode "http" "127.0.0.1:9090"
      (some { id := "a", name := "svc", version := "v1",
              metadata := [("weight", "10x")], endpoints := [] })).weight = none ∧
    (directBuild (NewNode "http" "127.0.0.1:9090"
      (some { id := "a", name := "svc", version := "v1",
              metadata := [("weight", "10x")], endpoints := [] }))).weight = 100 ∧
    (∀ ins2 : ServiceInstance, mapGet? ins2.metadata "weight" = none →
      (NewNode "http" "127.0.0.1:9090" (some ins2)).weight = none ∧
      (directBuild (NewNode "http" "127.0.0.1:9090" (some ins2))).weight = 100) :=
  c10_malformed_weight "http" "127.0.0.1:9090"
    { id := "a", name := "svc", version := "v1",
      metadata := [("weight", "10x")], endpoints := [] }
    "10x" (by decide) (by decide)

end Kratos
